import Mathlib

/-!
# Tile coverage and cache management of `llmr::map`

A shallow embedding of `src/map/map.cpp` (`hasTile`, `addTile`,
`findLoadedChildren`, `findLoadedParent`, `updateTiles`, `render`, `update`,
`tileLoaded`, `tileFailed`) together with theorems about the required set,
the retain set, eviction, request dispatch, render order and the loader
callbacks, followed by an embedding of `parseGlyphPBF` from
`src/mbgl/text/glyph_pbf.cpp`.

Conventions of the embedding.

* `int32_t` values are `Int`.  The constructor sets `min_zoom = 0` and
  `max_zoom = 14`, nothing in the file changes them, and for these values no
  `int32_t` addition or subtraction of `updateTiles` leaves the 32 bit
  range; the zoom bounds stay fields of `map` so that statements can
  quantify over them.
* `double` viewport coordinates are rationals; `floor`, `ceil`, `fmin`,
  `fmax` are the exact operations (no NaN, no infinity).
* A `double` stored into an `int32_t` (lines 191 and 198-201) goes through
  `toInt32`: a value inside the `int32_t` range is kept, a value outside it
  becomes the least `int32_t`.
* `std::forward_list` is `List`; `push_front` and `emplace_front` are `::`.
* `tile::ptr` is a shared pointer into the cache list: a write through the
  pointer returned by `hasTile` is a write to the first entry with that id.
* `platform::request` and `tile::cancel` are external; each call is recorded
  in a log, oldest call first.
-/

namespace llmr

/-- Quadtree coordinate `tile_id(x, y, z)`; equality is structural. -/
structure tile_id where
  x : Int
  y : Int
  z : Int
deriving DecidableEq, Repr

/-- Modelled from the spec: the `state` enumeration of `tile` (declared in
`tile.hpp`, not part of the sources).  `map.cpp` names `initial`, `loading`
and `ready`; the spec adds `Cancelled`, the state set by `tile::cancel`. -/
inductive tile_state where
  | initial
  | loading
  | ready
  | cancelled
deriving DecidableEq, Repr

/-- One cache entry: the fields of `tile` that `map.cpp` reads and writes. -/
structure tile where
  id : tile_id
  state : tile_state
deriving DecidableEq, Repr

/-- Template `vec2<T>`. -/
structure vec2 (T : Type) where
  x : T
  y : T
deriving DecidableEq, Repr

/-- The four projected viewport corners filled in by `mapCornersToBox`. -/
structure box where
  tl : vec2 ℚ
  tr : vec2 ℚ
  bl : vec2 ℚ
  br : vec2 ℚ

/-- The external `transform` as `updateTiles` reads it: `getZoom` is the
value of `transform->getZoom()` after its conversion to `int32_t`, and
`mapCornersToBox zoom` is the box written by
`transform->mapCornersToBox(zoom, box)`. -/
structure transform where
  getZoom : Int
  mapCornersToBox : Int → box

/-- The members of `map` used by the tile logic. -/
structure map where
  min_zoom : Int
  max_zoom : Int
  tiles : List tile

/-- Member initialisers of `map::map` (lines 13-19) with an empty tile list. -/
def map.init : map := ⟨0, 14, []⟩

/-! ## Zoom clamping and the tile range (lines 180-201) -/

/-- Lines 180-182: the raw zoom, capped at `max_zoom`, then raised to
`min_zoom`. -/
def clampZoom (min_zoom max_zoom raw : Int) : Int :=
  let zoom := if raw > max_zoom then max_zoom else raw
  if zoom < min_zoom then min_zoom else zoom

/-- Lines 184-185. -/
def maxCoveringZoom (max_zoom zoom : Int) : Int :=
  let max_covering_zoom := zoom + 1
  if max_covering_zoom > max_zoom then max_zoom else max_covering_zoom

/-- Lines 187-188. -/
def minCoveringZoom (min_zoom zoom : Int) : Int :=
  let min_covering_zoom := zoom - 10
  if min_covering_zoom < min_zoom then min_zoom else min_covering_zoom

/-- The conversion of a `double` that holds an integer to `int32_t`.  Inside
the range `[-2^31, 2^31)` the value is kept.  Outside it the conversion is
undefined in C++; the model takes what the conversion instruction of x86
yields, the least `int32_t`. -/
def toInt32 (v : Int) : Int :=
  if -2147483648 ≤ v ∧ v < 2147483648 then v else -2147483648

/-- Line 191: `int32_t max_dim = pow(2, zoom)`.  For a negative zoom the
power is a fraction below one and the conversion truncates it to zero; for a
zoom above 30 the power is beyond the `int32_t` range. -/
def maxDim (zoom : Int) : Int :=
  if 0 ≤ zoom then toInt32 (2 ^ zoom.toNat) else 0

/-- Lines 198-199: the top-left tile corner, each coordinate stored into an
`int32_t`. -/
def tileTL (b : box) : vec2 Int :=
  ⟨toInt32 (max 0 ⌊min b.tl.x b.bl.x⌋), toInt32 (max 0 ⌊min b.tl.y b.tr.y⌋)⟩

/-- Lines 200-201: the bottom-right tile corner, each coordinate stored into
an `int32_t`. -/
def tileBR (max_dim : Int) (b : box) : vec2 Int :=
  ⟨toInt32 (min max_dim ⌈max b.tr.x b.br.x⌉), toInt32 (min max_dim ⌈max b.bl.y b.br.y⌉)⟩

/-- The values `lo, lo + 1, ..., hi - 1` taken by the counter of
`for (int32_t v = lo; v < hi; v++)`. -/
def intRange (lo hi : Int) : List Int :=
  (List.range (hi - lo).toNat).map (fun (i : Nat) => lo + (i : Int))

/-- Lines 205-210: the nested loops that `emplace_front` every `(x, y, zoom)`
of the tile range onto `required`. -/
def requiredTiles (tl br : vec2 Int) (zoom : Int) : List tile_id :=
  (intRange tl.y br.y).foldl
    (fun required y =>
      (intRange tl.x br.x).foldl (fun required x => ⟨x, y, zoom⟩ :: required) required)
    []

/-! ## Quadtree relations -/

/-- Modelled from the spec: `tile::children(id, z)` (defined in `tile.cpp`,
not part of the sources).  The spec describes it as the descendant ids at
zoom `z` whose ancestor at `id.z` is `id`, every level splitting a tile into
four; the spec fixes no order, the rows are listed top to bottom here. -/
def tile.children (id : tile_id) (z : Int) : List tile_id :=
  let factor : Int := 2 ^ (z - id.z).toNat
  (intRange (id.y * factor) ((id.y + 1) * factor)).flatMap
    (fun y => (intRange (id.x * factor) ((id.x + 1) * factor)).map (fun x => ⟨x, y, z⟩))

/-- Modelled from the spec: `tile::parent(id, z)` (defined in `tile.cpp`,
not part of the sources), the unique ancestor of `id` at zoom `z`: the tile
at zoom `z` whose descendants at `id.z` include `id`. -/
def tile.parent (id : tile_id) (z : Int) : tile_id :=
  let factor : Int := 2 ^ (id.z - z).toNat
  ⟨id.x / factor, id.y / factor, z⟩

/-! ## Cache lookup (lines 100-123) -/

/-- Lines 100-108: the first cache entry with the given id, if any. -/
def hasTile : List tile → tile_id → Option tile
  | [], _ => none
  | t :: rest, id => if t.id = id then some t else hasTile rest id

/-- Lines 110-123: the entry found by `hasTile`, or a new entry pushed to the
front.  Returns the new list and the entry the returned pointer refers to.
Modelled from the spec: the constructor `tile(id)` (in `tile.cpp`) leaves the
new tile in state `initial`. -/
def addTile (tiles : List tile) (id : tile_id) : List tile × tile :=
  match hasTile tiles id with
  | some t => (tiles, t)
  | none => (⟨id, tile_state.initial⟩ :: tiles, ⟨id, tile_state.initial⟩)

/-- The write `tile->state = s` through the pointer returned by
`hasTile tiles id`: the first entry with that id changes state. -/
def setState : List tile → tile_id → tile_state → List tile
  | [], _, _ => []
  | t :: rest, id, s => if t.id = id then ⟨t.id, s⟩ :: rest else t :: setState rest id s

/-- The test `tile && tile->state == tile::ready` on a `hasTile` result:
the tile itself when it passes. -/
def readyTile (found : Option tile) : Option tile :=
  found.filter (fun t => t.state = tile_state.ready)

/-! ## Substitute search (lines 134-175) -/

/-- Lines 135-152, the body of `findLoadedChildren`, with the recursive call
of line 148 passed in as `self`. -/
def findLoadedChildrenBody (tiles : List tile) (maxCoveringZoom : Int)
    (self : tile_id → List tile_id → Bool × List tile_id)
    (id : tile_id) (retain : List tile_id) : Bool × List tile_id :=
  let z := id.z
  (tile.children id (z + 1)).foldl
    (fun (acc : Bool × List tile_id) child_id =>
      match readyTile (hasTile tiles child_id) with
      | some t => (acc.1, t.id :: acc.2)
      | none =>
        (false, if z < maxCoveringZoom then (self child_id acc.2).2 else acc.2))
    (true, retain)

/-- The recursion of `findLoadedChildren` unrolled `fuel` levels deep.  With
no fuel left nothing is searched; `findLoadedChildren` starts with more fuel
than levels the guard `z < maxCoveringZoom` lets through. -/
def findLoadedChildrenFuel (tiles : List tile) (maxCoveringZoom : Int) :
    Nat → tile_id → List tile_id → Bool × List tile_id
  | 0 => fun _ retain => (false, retain)
  | fuel + 1 =>
    findLoadedChildrenBody tiles maxCoveringZoom
      (findLoadedChildrenFuel tiles maxCoveringZoom fuel)

/-- Lines 134-153: returns `complete` and the updated `retain`. -/
def findLoadedChildren (tiles : List tile) (id : tile_id) (maxCoveringZoom : Int)
    (retain : List tile_id) : Bool × List tile_id :=
  findLoadedChildrenFuel tiles maxCoveringZoom ((maxCoveringZoom - id.z).toNat + 1) id retain

/-- Lines 165-174: the loop `for (z = ...; z >= minCoveringZoom; z--)` from
the value `z` on, `fuel` bounding the iterations still to run.  With no fuel
left the loop has run out of values of `z`. -/
def findLoadedParentLoop (tiles : List tile) (id : tile_id) (minCoveringZoom : Int) :
    Nat → Int → List tile_id → Bool × List tile_id
  | 0, _, retain => (false, retain)
  | fuel + 1, z, retain =>
    if z ≥ minCoveringZoom then
      match readyTile (hasTile tiles (tile.parent id z)) with
      | some t => (true, t.id :: retain)
      | none => findLoadedParentLoop tiles id minCoveringZoom fuel (z - 1) retain
    else (false, retain)

/-- Lines 164-175: returns whether a parent was found and the updated
`retain`.  The loop starts at `id.z - 1` and runs `id.z - minCoveringZoom`
times at most. -/
def findLoadedParent (tiles : List tile) (id : tile_id) (minCoveringZoom : Int)
    (retain : List tile_id) : Bool × List tile_id :=
  findLoadedParentLoop tiles id minCoveringZoom (id.z - minCoveringZoom).toNat (id.z - 1) retain

/-! ## The refresh (lines 178-261) -/

/-- What the loop of lines 218-242 reads and writes: the cache list, the
`retain` list and the log of `platform::request` calls. -/
structure loop_state where
  tiles : List tile
  retain : List tile_id
  requests : List tile_id
deriving DecidableEq, Repr

/-- Lines 219-241: one iteration of the loop over `required`. -/
def updateTilesStep (max_covering_zoom min_covering_zoom : Int) (s : loop_state)
    (id : tile_id) : loop_state :=
  let added := addTile s.tiles id
  let tiles := added.1
  let t := added.2
  let retain :=
    if t.state ≠ tile_state.ready then
      let children := findLoadedChildren tiles id max_covering_zoom s.retain
      if !children.1 then (findLoadedParent tiles id min_covering_zoom children.2).2
      else children.2
    else s.retain
  if t.state = tile_state.initial then
    ⟨setState tiles id tile_state.loading, retain, s.requests ++ [id]⟩
  else ⟨tiles, retain, s.requests⟩

/-- Lines 246-253: `tiles.remove_if`; returns the entries kept and, in list
order, the entries on which `cancel()` was called. -/
def removeObsolete (retain : List tile_id) : List tile → List tile × List tile
  | [] => ([], [])
  | t :: rest =>
    let r := removeObsolete retain rest
    let obsolete := ¬ (t.id ∈ retain)
    if obsolete then (r.1, t :: r.2) else (t :: r.1, r.2)

/-- Lines 258-260: the comparator handed to `tiles.sort`. -/
def zoomBefore (a b : tile) : Prop := a.id.z > b.id.z

instance zoomBefore_decidable : DecidableRel zoomBefore :=
  fun a b => inferInstanceAs (Decidable (a.id.z > b.id.z))

/-- Line 258: `std::forward_list::sort` is a stable sort: the result is
ordered by the comparator and entries that compare equal keep their order.
Insertion before the first entry that does not compare before the inserted
one is such a sort. -/
def sortTiles (tiles : List tile) : List tile :=
  tiles.insertionSort (fun a b => ¬ zoomBefore b a)

/-- Everything one run of `updateTiles` produces. -/
structure refresh where
  zoom : Int
  required : List tile_id
  retain : List tile_id
  loaded : List tile
  requests : List tile_id
  cancelled : List tile
  tiles : List tile
deriving DecidableEq, Repr

/-- Lines 178-261.  `loaded` is the cache after the loop over `required`
and before `remove_if`; `tiles` is the cache on return. -/
def updateTiles (m : map) (tr : transform) : refresh :=
  let zoom := clampZoom m.min_zoom m.max_zoom tr.getZoom
  let max_covering_zoom := maxCoveringZoom m.max_zoom zoom
  let min_covering_zoom := minCoveringZoom m.min_zoom zoom
  let max_dim := maxDim zoom
  let b := tr.mapCornersToBox zoom
  let tl := tileTL b
  let br := tileBR max_dim b
  let required := requiredTiles tl br zoom
  let s := required.foldl (updateTilesStep max_covering_zoom min_covering_zoom)
    ⟨m.tiles, required, []⟩
  let r := removeObsolete s.retain s.tiles
  ⟨zoom, required, s.retain, s.tiles, s.requests, r.2, sortTiles r.1⟩

/-- The map after `updateTiles`. -/
def map.refreshed (m : map) (tr : transform) : map :=
  ⟨m.min_zoom, m.max_zoom, (updateTiles m tr).tiles⟩

/-- Lines 266-271: the tiles handed to `painter->render`, in call order. -/
def render : List tile → List tile
  | [] => []
  | t :: rest => if t.state = tile_state.ready then t :: render rest else render rest

/-! ## Callbacks (lines 94-97 and 276-285) -/

/-- Lines 94-97: `update` runs `updateTiles`.  The call `platform::restart`
that follows asks the platform for a redraw; it reads and writes neither the
cache nor the request and cancel logs. -/
def update (m : map) (tr : transform) : refresh :=
  updateTiles m tr

/-- Lines 276-279: the success callback.  Its body is the call `update()`;
the tile it is handed is not read. -/
def tileLoaded (m : map) (tr : transform) (_t : tile) : refresh :=
  update m tr

/-- Lines 281-285: the failure callback.  Its body holds a comment only: the
map is left as it is. -/
def tileFailed (m : map) (_t : tile) : map :=
  m

end llmr

/-! ## Glyph parsing (`src/mbgl/text/glyph_pbf.cpp`) -/

namespace mbgl

/-- One field of a glyph message as the loop of lines 25-58 reads it: the
tag selects the constructor, the payload is the value returned by
`get_uint32`, `get_sint32` or `get_view` (the bytes of the view).  `other` is
a field with any tag outside 1..7, which line 55 skips. -/
inductive glyph_field where
  | id (v : Nat)
  | bitmap (bytes : List Nat)
  | width (v : Nat)
  | height (v : Nat)
  | left (v : Int)
  | top (v : Int)
  | advance (v : Nat)
  | other
deriving DecidableEq, Repr

/-- The members of `GlyphMetrics` that lines 35-53 assign (the type is
declared in `glyph.hpp`, not part of the sources). -/
structure GlyphMetrics where
  width : Nat
  height : Nat
  left : Int
  top : Int
  advance : Nat
deriving DecidableEq, Repr

/-- The two extents of `Size` and its `area()`. -/
structure Size where
  width : Nat
  height : Nat
deriving DecidableEq, Repr

/-- The product `Size::area()`. -/
def Size.area (s : Size) : Nat :=
  s.width * s.height

/-- The image built by `AlphaImage(size, data, length)`: its size and a copy
of the bytes. -/
structure AlphaImage where
  size : Size
  data : List Nat
deriving DecidableEq, Repr

/-- The members of `SDFGlyph` that `parseGlyphPBF` writes (the type is
declared in `glyph.hpp`, not part of the sources).  `none` stands for a
member that was never assigned and still has its default-constructed
value. -/
structure SDFGlyph where
  id : Nat
  bitmap : Option AlphaImage
  metrics : Option GlyphMetrics
deriving DecidableEq, Repr

/-- The local variables of lines 18-24 that the field loop writes. -/
structure glyph_reader where
  id : Nat
  glyphData : List Nat
  metrics : GlyphMetrics
  hasID : Bool
  hasWidth : Bool
  hasHeight : Bool
  hasLeft : Bool
  hasTop : Bool
  hasAdvance : Bool
deriving DecidableEq, Repr

/-- Lines 18-24: the variables before the first field is read.  The numbers
start at zero here; a glyph that lacks one of the six fields is dropped
whatever the start value. -/
def glyph_reader.start : glyph_reader :=
  ⟨0, [], ⟨0, 0, 0, 0, 0⟩, false, false, false, false, false, false⟩

/-- Lines 26-57: the `switch` on the tag of one field. -/
def readField (r : glyph_reader) : glyph_field → glyph_reader
  | glyph_field.id v => { r with id := v, hasID := true }
  | glyph_field.bitmap bytes => { r with glyphData := bytes }
  | glyph_field.width v => { r with metrics := { r.metrics with width := v }, hasWidth := true }
  | glyph_field.height v => { r with metrics := { r.metrics with height := v }, hasHeight := true }
  | glyph_field.left v => { r with metrics := { r.metrics with left := v }, hasLeft := true }
  | glyph_field.top v => { r with metrics := { r.metrics with top := v }, hasTop := true }
  | glyph_field.advance v =>
    { r with metrics := { r.metrics with advance := v }, hasAdvance := true }
  | glyph_field.other => r

/-- Lines 25-58: the loop `while (glyph_pbf.next())` over the fields of one
glyph message. -/
def readGlyph (fields : List glyph_field) : glyph_reader :=
  fields.foldl readField glyph_reader.start

/-- Lines 60-93 for one glyph message: `none` is a `continue`, `some glyph`
is the glyph handed to `result.push_back`.  `borderSize` is the constant
`SDFGlyph::borderSize` (declared in `glyph.hpp`) and `glyphRange` the pair
`(first, second)`. -/
def parseGlyph (borderSize : Nat) (glyphRange : Nat × Nat) (fields : List glyph_field) :
    Option SDFGlyph :=
  let r := readGlyph fields
  let metrics := r.metrics
  if !r.hasID || !r.hasWidth || !r.hasHeight || !r.hasLeft || !r.hasTop || !r.hasAdvance ||
      decide (metrics.width ≥ 256) || decide (metrics.height ≥ 256) ||
      decide (metrics.left < -128) || decide (metrics.left ≥ 128) ||
      decide (metrics.top < -128) || decide (metrics.top ≥ 128) ||
      decide (metrics.advance ≥ 256) ||
      decide (r.id < glyphRange.1) || decide (r.id > glyphRange.2) then
    none
  else
    let glyph : SDFGlyph := ⟨r.id, none, none⟩
    let withBitmap : Option SDFGlyph :=
      if metrics.width ≠ 0 ∧ metrics.height ≠ 0 then
        let size : Size := ⟨metrics.width + 2 * borderSize, metrics.height + 2 * borderSize⟩
        if size.area ≠ r.glyphData.length then none
        else some { glyph with bitmap := some ⟨size, r.glyphData⟩ }
      else some glyph
    match withBitmap with
    | none => none
    | some glyph =>
      if ¬ (metrics.width = 0 ∧ metrics.height = 0 ∧ metrics.advance = 0) then
        some { glyph with metrics := some metrics }
      else some glyph

/-- Lines 7-98.  `data` is the decoded message: the list of its fontstack
messages (fields with tag 1), each the list of its glyph messages (fields
with tag 3), each the list of its fields.  A glyph that is not dropped is
appended to `result`. -/
def parseGlyphPBF (borderSize : Nat) (glyphRange : Nat × Nat)
    (data : List (List (List glyph_field))) : List SDFGlyph :=
  data.foldl
    (fun result fontstack =>
      fontstack.foldl
        (fun result fields =>
          match parseGlyph borderSize glyphRange fields with
          | some glyph => result ++ [glyph]
          | none => result)
        result)
    []

/-- A decoded glyph record is well formed in the words of the claim: all six
fields present, the metrics within their bounds, the id inside the glyph
range, and the bitmap of the padded size whenever width and height are both
non-zero. -/
def accepted (borderSize : Nat) (glyphRange : Nat × Nat) (r : glyph_reader) : Prop :=
  r.hasID = true ∧ r.hasWidth = true ∧ r.hasHeight = true ∧ r.hasLeft = true ∧
  r.hasTop = true ∧ r.hasAdvance = true ∧
  r.metrics.width < 256 ∧ r.metrics.height < 256 ∧
  -128 ≤ r.metrics.left ∧ r.metrics.left < 128 ∧
  -128 ≤ r.metrics.top ∧ r.metrics.top < 128 ∧
  r.metrics.advance < 256 ∧
  glyphRange.1 ≤ r.id ∧ r.id ≤ glyphRange.2 ∧
  (r.metrics.width ≠ 0 ∧ r.metrics.height ≠ 0 →
    r.glyphData.length =
      (r.metrics.width + 2 * borderSize) * (r.metrics.height + 2 * borderSize))

instance accepted_decidable (borderSize : Nat) (glyphRange : Nat × Nat) (r : glyph_reader) :
    Decidable (accepted borderSize glyphRange r) := by
  unfold accepted
  infer_instance

/-- Example message: one fontstack with a glyph `65` of size `1 x 1` and a
49 byte bitmap, a space `32` without bitmap, a glyph outside the range, and
a glyph without advance. -/
def exampleGlyphs : List (List (List glyph_field)) :=
  [[[glyph_field.id 65, glyph_field.bitmap (List.replicate 49 0), glyph_field.width 1,
      glyph_field.height 1, glyph_field.left 0, glyph_field.top (-1), glyph_field.advance 2],
    [glyph_field.id 32, glyph_field.width 0, glyph_field.height 0, glyph_field.left 0,
      glyph_field.top 0, glyph_field.advance 5],
    [glyph_field.id 300, glyph_field.width 0, glyph_field.height 0, glyph_field.left 0,
      glyph_field.top 0, glyph_field.advance 5],
    [glyph_field.id 66, glyph_field.width 0, glyph_field.height 0, glyph_field.left 0,
      glyph_field.top 0]]]

end mbgl

namespace llmr

/-! ## Specification predicates and proof-side definitions -/

/-- The top-left corner of the axis-aligned bounding box of all four viewport
corners, floored and clamped below by zero. -/
def boundingTL (b : box) : vec2 Int :=
  ⟨max 0 ⌊min (min b.tl.x b.tr.x) (min b.bl.x b.br.x)⌋,
   max 0 ⌊min (min b.tl.y b.tr.y) (min b.bl.y b.br.y)⌋⟩

/-- The bottom-right corner of the axis-aligned bounding box of all four
viewport corners, ceiled and clamped above by `max_dim`. -/
def boundingBR (max_dim : Int) (b : box) : vec2 Int :=
  ⟨min max_dim ⌈max (max b.tl.x b.tr.x) (max b.bl.x b.br.x)⌉,
   min max_dim ⌈max (max b.tl.y b.tr.y) (max b.bl.y b.br.y)⌉⟩

/-- Tile `c` is a strict descendant of tile `id`: it lies at a greater zoom
and its ancestor at the zoom of `id` is `id`. -/
def isDescendant (c id : tile_id) : Prop :=
  id.z < c.z ∧ tile.parent c id.z = id

/-- The ready tiles reached by the search of `findLoadedChildren` cover the
tile completely: every child is ready, or the search goes on below it
(`id.z < maxCoveringZoom`) and the child is covered in turn.  `depth` bounds
the levels looked at. -/
def coveredByReady (tiles : List tile) (maxCoveringZoom : Int) : Nat → tile_id → Bool
  | 0, _ => false
  | depth + 1, id =>
    (tile.children id (id.z + 1)).all (fun c =>
      (readyTile (hasTile tiles c)).isSome ||
        (decide (id.z < maxCoveringZoom) && coveredByReady tiles maxCoveringZoom depth c))


/-- The floor of the top-left corner of the viewport box clamped below by
zero, as an exact integer: the value lines 198-199 compute before it is
stored into an `int32_t`. -/
def clampedTL (b : box) : vec2 Int :=
  ⟨max 0 ⌊min b.tl.x b.bl.x⌋, max 0 ⌊min b.tl.y b.tr.y⌋⟩

/-- The ceiling of the bottom-right corner of the viewport box clamped above
by `max_dim`, as an exact integer: the value lines 200-201 compute before it
is stored into an `int32_t`. -/
def clampedBR (max_dim : Int) (b : box) : vec2 Int :=
  ⟨min max_dim ⌈max b.tr.x b.br.x⌉, min max_dim ⌈max b.bl.y b.br.y⌉⟩

/-- The value lies in the range of `int32_t`. -/
def fitsInt32 (v : Int) : Prop :=
  -2147483648 ≤ v ∧ v < 2147483648

/-- The half-open unit cell `[x, x+1) x [y, y+1)` of a tile shares a point
with the clamped viewport box: the half-open box from `fmin` to `fmax` of
lines 198-201, cut to `[0, max_dim)` on both axes. -/
def cellMeetsViewport (id : tile_id) (max_dim : Int) (b : box) : Prop :=
  ∃ p q : ℚ, (id.x : ℚ) ≤ p ∧ p < id.x + 1 ∧ (id.y : ℚ) ≤ q ∧ q < id.y + 1 ∧
    max 0 (min b.tl.x b.bl.x) ≤ p ∧ p < min (max_dim : ℚ) (max b.tr.x b.br.x) ∧
    max 0 (min b.tl.y b.tr.y) ≤ q ∧ q < min (max_dim : ℚ) (max b.bl.y b.br.y)

/-- The cache lookup finds a tile with this id and the tile is `ready`:
the condition of lines 141 and 168. -/
def isReady (tiles : List tile) (id : tile_id) : Bool :=
  (readyTile (hasTile tiles id)).isSome

/-- The ids of the cache entries, in list order. -/
def tileIds (tiles : List tile) : List tile_id :=
  tiles.map tile.id

/-- One iteration of the loop of lines 139-151 once the lookup is reduced to
the readiness test: `recurse` is the guarded recursive call of lines 146-149. -/
def childStep (ready : tile_id → Bool) (recurse : tile_id → List tile_id → List tile_id)
    (acc : Bool × List tile_id) (c : tile_id) : Bool × List tile_id :=
  if ready c then (acc.1, c :: acc.2) else (false, recurse c acc.2)

/-- The `retain` list after one iteration of lines 219-235, computed against
a fixed cache list: the searches only read which ids are ready. -/
def retainStep (tiles : List tile) (mcz mincz : Int) (retain : List tile_id)
    (id : tile_id) : List tile_id :=
  if isReady tiles id then retain
  else
    let children := findLoadedChildren tiles id mcz retain
    if !children.1 then (findLoadedParent tiles id mincz children.2).2 else children.2

/-- The state a required tile has after its iteration of the loop, from what
the lookup found before it: a new or `initial` tile is `loading`. -/
def loadedState (found : Option tile) : tile_state :=
  match found with
  | none => tile_state.loading
  | some t => if t.state = tile_state.initial then tile_state.loading else t.state

/-- The iteration for this tile issues `platform::request`: the tile was
absent or `initial`. -/
def needsRequest (found : Option tile) : Bool :=
  match found with
  | none => true
  | some t => decide (t.state = tile_state.initial)

/-- The map after a sequence of viewport changes, each followed by
`updateTiles`. -/
def map.refreshAll (m : map) : List transform → map
  | [] => m
  | tr :: rest => (m.refreshed tr).refreshAll rest

/-- Cache lists that can arise from the empty list: through `updateTiles`,
through `addTile`, and through a state written to a cached tile by a loader
callback. -/
inductive reachable : List tile → Prop where
  | empty : reachable []
  | update (m : map) (tr : transform) : reachable m.tiles → reachable (updateTiles m tr).tiles
  | add (tiles : List tile) (id : tile_id) : reachable tiles → reachable (addTile tiles id).1
  | state (tiles : List tile) (id : tile_id) (s : tile_state) :
      reachable tiles → reachable (setState tiles id s)

/-! ## Example inputs -/

/-- Example viewport: zoom 5, corners of the box `[1,3) x [2,4)`. -/
def exampleTransform : transform :=
  ⟨5, fun _ => ⟨⟨1, 2⟩, ⟨3, 2⟩, ⟨1, 4⟩, ⟨3, 4⟩⟩⟩

/-- Example cache: the ready parent `(0,1,4)` of the required `(1,2,5)` and
`(1,3,5)`, a ready child `(2,4,6)` of `(1,2,5)`, the required `(1,2,5)`
loading, the required `(2,2,5)` still initial, and an unrelated ready tile
`(7,7,7)`. -/
def exampleMap : map :=
  ⟨0, 14, [⟨⟨0, 1, 4⟩, tile_state.ready⟩, ⟨⟨2, 4, 6⟩, tile_state.ready⟩,
    ⟨⟨1, 2, 5⟩, tile_state.loading⟩, ⟨⟨2, 2, 5⟩, tile_state.initial⟩,
    ⟨⟨7, 7, 7⟩, tile_state.ready⟩]⟩

/-- Example viewport turned by half a turn: the corners of the box
`[1,3) x [2,4)` at zoom 5 with the screen's top-left corner mapped to the
bottom-right of the box. -/
def exampleRotatedTransform : transform :=
  ⟨5, fun _ => ⟨⟨3, 4⟩, ⟨1, 4⟩, ⟨3, 2⟩, ⟨1, 2⟩⟩⟩

/-- Example viewport of no extent: all four corners at the point
`(3/2, 5/2)` at zoom 5. -/
def examplePointTransform : transform :=
  ⟨5, fun _ => ⟨⟨3 / 2, 5 / 2⟩, ⟨3 / 2, 5 / 2⟩, ⟨3 / 2, 5 / 2⟩, ⟨3 / 2, 5 / 2⟩⟩⟩

/-- Example viewport far to the right of the map: the corners of the box
`[3000000000, 3000000002) x [2, 4)` at zoom 5; the left edge is beyond the
greatest `int32_t`. -/
def exampleFarTransform : transform :=
  ⟨5, fun _ => ⟨⟨3000000000, 2⟩, ⟨3000000002, 2⟩, ⟨3000000000, 4⟩, ⟨3000000002, 4⟩⟩⟩

/-- Example viewport covering the single tile `(1,2,5)`: zoom 5, corners of
the box `[1,2) x [2,3)`. -/
def exampleTileTransform : transform :=
  ⟨5, fun _ => ⟨⟨1, 2⟩, ⟨2, 2⟩, ⟨1, 3⟩, ⟨2, 3⟩⟩⟩

/-- Example cache: `(1,2,5)` loading, its four children at zoom 6 ready, and
its parent `(0,1,4)` ready. -/
def exampleChildrenMap : map :=
  ⟨0, 14, [⟨⟨1, 2, 5⟩, tile_state.loading⟩, ⟨⟨2, 4, 6⟩, tile_state.ready⟩,
    ⟨⟨3, 4, 6⟩, tile_state.ready⟩, ⟨⟨2, 5, 6⟩, tile_state.ready⟩,
    ⟨⟨3, 5, 6⟩, tile_state.ready⟩, ⟨⟨0, 1, 4⟩, tile_state.ready⟩]⟩

/-- Example cache for a late callback: the cache `updateTiles` leaves for
`exampleChildrenMap` and `exampleTileTransform` (the parent `(0,1,4)` was
evicted), after the loader has marked `(1,2,5)` ready. -/
def exampleStaleMap : map :=
  ⟨0, 14, [⟨⟨2, 4, 6⟩, tile_state.ready⟩, ⟨⟨3, 4, 6⟩, tile_state.ready⟩,
    ⟨⟨2, 5, 6⟩, tile_state.ready⟩, ⟨⟨3, 5, 6⟩, tile_state.ready⟩,
    ⟨⟨1, 2, 5⟩, tile_state.ready⟩]⟩

/-- Example cache: `(1,2,5)` loading, three of its children ready, the
child `(2,4,6)` missing and the four children of `(2,4,6)` at zoom 7
ready; the parent `(0,1,4)` is ready too. -/
def exampleGrandchildrenMap : map :=
  ⟨0, 14, [⟨⟨1, 2, 5⟩, tile_state.loading⟩, ⟨⟨3, 4, 6⟩, tile_state.ready⟩,
    ⟨⟨2, 5, 6⟩, tile_state.ready⟩, ⟨⟨3, 5, 6⟩, tile_state.ready⟩,
    ⟨⟨4, 8, 7⟩, tile_state.ready⟩, ⟨⟨5, 8, 7⟩, tile_state.ready⟩,
    ⟨⟨4, 9, 7⟩, tile_state.ready⟩, ⟨⟨5, 9, 7⟩, tile_state.ready⟩,
    ⟨⟨0, 1, 4⟩, tile_state.ready⟩]⟩

/-- Example cache: `(1,2,5)` loading and one ready tile two zoom levels
below it, `(4,8,7)`. -/
def exampleDeepMap : map :=
  ⟨0, 14, [⟨⟨1, 2, 5⟩, tile_state.loading⟩, ⟨⟨4, 8, 7⟩, tile_state.ready⟩]⟩

/-- Example viewport at the greatest zoom covering the single tile
`(0,0,14)`. -/
def exampleMaxZoomTransform : transform :=
  ⟨14, fun _ => ⟨⟨0, 0⟩, ⟨1, 0⟩, ⟨0, 1⟩, ⟨1, 1⟩⟩⟩

/-- Example cache: a ready tile at zoom 15, one level above `max_zoom`. -/
def exampleMaxZoomMap : map :=
  ⟨0, 14, [⟨⟨0, 0, 15⟩, tile_state.ready⟩]⟩

/-! ## Ranges and the required list -/

theorem mem_intRange (lo hi v : Int) : v ∈ intRange lo hi ↔ lo ≤ v ∧ v < hi := by
  unfold intRange
  simp only [List.mem_map, List.mem_range]
  constructor
  · rintro ⟨i, hi1, rfl⟩
    omega
  · rintro ⟨h1, h2⟩
    exact ⟨(v - lo).toNat, by omega, by omega⟩

theorem nodup_intRange (lo hi : Int) : (intRange lo hi).Nodup := by
  unfold intRange
  refine List.Nodup.map ?_ (List.nodup_range _)
  intro a b h
  simpa using h

theorem foldl_cons_eq {α β : Type} (f : α → β) (xs : List α) (init : List β) :
    xs.foldl (fun acc x => f x :: acc) init = (xs.map f).reverse ++ init := by
  induction xs generalizing init with
  | nil => simp
  | cons a xs ih => simp [ih]

theorem foldl_append_eq {α β : Type} (g : α → List β) (xs : List α) (init : List β) :
    xs.foldl (fun acc x => g x ++ acc) init = (xs.map g).reverse.flatten ++ init := by
  induction xs generalizing init with
  | nil => simp
  | cons a xs ih => simp [ih]

theorem requiredTiles_eq (tl br : vec2 Int) (zoom : Int) :
    requiredTiles tl br zoom =
      ((intRange tl.y br.y).flatMap
        (fun y => (intRange tl.x br.x).map (fun x => (⟨x, y, zoom⟩ : tile_id)))).reverse := by
  unfold requiredTiles
  simp only [foldl_cons_eq]
  rw [foldl_append_eq]
  simp only [List.append_nil]
  induction intRange tl.y br.y with
  | nil => simp
  | cons a l ih =>
    simp only [List.map_cons, List.reverse_cons, List.flatten_append, List.flatten_cons,
      List.flatten_nil, List.append_nil, List.flatMap_cons, List.reverse_append, ih]

theorem mem_requiredTiles (tl br : vec2 Int) (zoom : Int) (id : tile_id) :
    id ∈ requiredTiles tl br zoom ↔
      id.z = zoom ∧ tl.x ≤ id.x ∧ id.x < br.x ∧ tl.y ≤ id.y ∧ id.y < br.y := by
  rw [requiredTiles_eq]
  simp only [List.mem_reverse, List.mem_flatMap, List.mem_map, mem_intRange]
  constructor
  · rintro ⟨y, ⟨hy1, hy2⟩, x, ⟨hx1, hx2⟩, rfl⟩
    exact ⟨rfl, hx1, hx2, hy1, hy2⟩
  · rintro ⟨hz, hx1, hx2, hy1, hy2⟩
    refine ⟨id.y, ⟨hy1, hy2⟩, id.x, ⟨hx1, hx2⟩, ?_⟩
    cases id
    simp_all

theorem nodup_requiredTiles (tl br : vec2 Int) (zoom : Int) :
    (requiredTiles tl br zoom).Nodup := by
  rw [requiredTiles_eq, List.nodup_reverse, List.nodup_flatMap]
  constructor
  · intro y _
    refine List.Nodup.map ?_ (nodup_intRange _ _)
    intro a b h
    simpa using h
  · refine List.Nodup.pairwise_of_forall_ne (nodup_intRange _ _) ?_
    intro a _ b _ hab
    simp only [Function.onFun, List.disjoint_left, List.mem_map]
    rintro id ⟨x, _, rfl⟩ ⟨x2, _, h⟩
    simp only [tile_id.mk.injEq] at h
    exact hab h.2.1.symm

theorem toInt32_of_fits {v : Int} (h : fitsInt32 v) : toInt32 v = v := by
  unfold toInt32
  exact if_pos h

theorem toInt32_fits (v : Int) : fitsInt32 (toInt32 v) := by
  unfold toInt32 fitsInt32
  split
  · assumption
  · omega

theorem toInt32_le_of_nonneg {v : Int} (h : 0 ≤ v) : toInt32 v ≤ v := by
  unfold toInt32
  split <;> omega

theorem lt_toInt32_iff {x v : Int} (hx : -2147483648 ≤ x) (hv : v < 2147483648) :
    x < toInt32 v ↔ x < v := by
  unfold toInt32
  split <;> omega

theorem maxDim_lt (zoom : Int) : maxDim zoom < 2147483648 := by
  unfold maxDim
  split
  · exact (toInt32_fits _).2
  · omega

theorem maxDim_eq (zoom : Int) (h0 : 0 ≤ zoom) (h1 : zoom ≤ 30) :
    maxDim zoom = 2 ^ zoom.toNat := by
  unfold maxDim
  rw [if_pos h0]
  apply toInt32_of_fits
  have hn : zoom.toNat ≤ 30 := by omega
  have hp : (2 : Int) ^ zoom.toNat ≤ 2 ^ 30 := by
    exact_mod_cast Nat.pow_le_pow_right (by decide : 0 < 2) hn
  have hpos : (0 : Int) < 2 ^ zoom.toNat := by positivity
  unfold fitsInt32
  constructor
  · omega
  · have : (2 : Int) ^ 30 = 1073741824 := by norm_num
    omega

theorem maxDim_le_zpow (zoom : Int) : (maxDim zoom : ℚ) ≤ (2 : ℚ) ^ zoom := by
  unfold maxDim
  split
  · rename_i h
    have hz : zoom = ((zoom.toNat : Nat) : Int) := by omega
    have hle : toInt32 (2 ^ zoom.toNat) ≤ 2 ^ zoom.toNat := toInt32_le_of_nonneg (by positivity)
    have hq : ((toInt32 (2 ^ zoom.toNat) : Int) : ℚ) ≤ ((2 ^ zoom.toNat : Int) : ℚ) := by
      exact_mod_cast hle
    conv_rhs => rw [hz]
    rw [zpow_natCast]
    push_cast at hq
    exact hq
  · push_cast
    positivity

theorem axis_of_meets (x d : Int) (a b p : ℚ) (h1 : (x : ℚ) ≤ p) (h2 : p < x + 1)
    (h3 : max 0 a ≤ p) (h4 : p < min (d : ℚ) b) :
    max 0 ⌊a⌋ ≤ x ∧ x < min d ⌈b⌉ := by
  have hx0 : (0 : ℚ) < x + 1 := lt_of_le_of_lt (le_trans (le_max_left _ _) h3) h2
  have hxa : a < x + 1 := lt_of_le_of_lt (le_trans (le_max_right _ _) h3) h2
  have hxd : (x : ℚ) < d := lt_of_le_of_lt h1 (lt_of_lt_of_le h4 (min_le_left _ _))
  have hxb : (x : ℚ) < b := lt_of_le_of_lt h1 (lt_of_lt_of_le h4 (min_le_right _ _))
  have i0 : 0 < x + 1 := by exact_mod_cast hx0
  have ia : ⌊a⌋ < x + 1 := by
    rw [Int.floor_lt]
    exact_mod_cast hxa
  have id1 : x < d := by exact_mod_cast hxd
  have ib : x < ⌈b⌉ := Int.lt_ceil.2 hxb
  refine ⟨max_le (by omega) (by omega), lt_min id1 ib⟩

theorem axis_meets_of_mem (x d : Int) (a b : ℚ) (hab : a < b)
    (h1 : max 0 ⌊a⌋ ≤ x) (h2 : x < min d ⌈b⌉) :
    ∃ p : ℚ, (x : ℚ) ≤ p ∧ p < x + 1 ∧ max 0 a ≤ p ∧ p < min (d : ℚ) b := by
  have hx0 : 0 ≤ x := le_trans (le_max_left _ _) h1
  have hfa : ⌊a⌋ ≤ x := le_trans (le_max_right _ _) h1
  have hxd : x < d := lt_of_lt_of_le h2 (min_le_left _ _)
  have hxb : x < ⌈b⌉ := lt_of_lt_of_le h2 (min_le_right _ _)
  have qa : a < x + 1 := by
    have := Int.lt_floor_add_one a
    have h3 : ((⌊a⌋ : Int) : ℚ) ≤ x := by exact_mod_cast hfa
    linarith
  have qb : (x : ℚ) < b := Int.lt_ceil.1 hxb
  have qd : (x : ℚ) < d := by exact_mod_cast hxd
  have q0 : (0 : ℚ) ≤ x := by exact_mod_cast hx0
  have qd1 : (x : ℚ) + 1 ≤ d := by exact_mod_cast (by omega : x + 1 ≤ d)
  refine ⟨max x a, le_max_left _ _, max_lt (by linarith) qa,
    max_le (le_trans q0 (le_max_left _ _)) (le_max_right _ _), lt_min ?_ (max_lt qb hab)⟩
  exact max_lt qd (by linarith)

/-- Every tile whose cell meets the clamped viewport box lies in the range
between the clamped corners. -/
theorem mem_clamped_of_cellMeetsViewport (id : tile_id) (max_dim : Int) (b : box)
    (h : cellMeetsViewport id max_dim b) :
    (clampedTL b).x ≤ id.x ∧ id.x < (clampedBR max_dim b).x ∧
    (clampedTL b).y ≤ id.y ∧ id.y < (clampedBR max_dim b).y := by
  obtain ⟨p, q, h1, h2, h3, h4, h5, h6, h7, h8⟩ := h
  have hx := axis_of_meets id.x max_dim _ _ p h1 h2 h5 h6
  have hy := axis_of_meets id.y max_dim _ _ q h3 h4 h7 h8
  exact ⟨hx.1, hx.2, hy.1, hy.2⟩

/-- When the viewport box has positive width and height, the cell of every
tile in the range between the clamped corners meets the clamped viewport
box. -/
theorem cellMeetsViewport_of_mem_clamped (id : tile_id) (max_dim : Int) (b : box)
    (hx : min b.tl.x b.bl.x < max b.tr.x b.br.x) (hy : min b.tl.y b.tr.y < max b.bl.y b.br.y)
    (h : (clampedTL b).x ≤ id.x ∧ id.x < (clampedBR max_dim b).x ∧
      (clampedTL b).y ≤ id.y ∧ id.y < (clampedBR max_dim b).y) :
    cellMeetsViewport id max_dim b := by
  obtain ⟨p, hp1, hp2, hp3, hp4⟩ := axis_meets_of_mem id.x max_dim _ _ hx h.1 h.2.1
  obtain ⟨q, hq1, hq2, hq3, hq4⟩ := axis_meets_of_mem id.y max_dim _ _ hy h.2.2.1 h.2.2.2
  exact ⟨p, q, hp1, hp2, hq1, hq2, hp3, hp4, hq3, hq4⟩

theorem clampedTL_nonneg (b : box) : 0 ≤ (clampedTL b).x ∧ 0 ≤ (clampedTL b).y :=
  ⟨le_max_left _ _, le_max_left _ _⟩

/-- When the clamped top-left corner is below `2^31` on both axes, storing it
into `int32_t` keeps it. -/
theorem tileTL_eq_clamped (b : box)
    (h : (clampedTL b).x < 2147483648 ∧ (clampedTL b).y < 2147483648) :
    tileTL b = clampedTL b := by
  have h0 := clampedTL_nonneg b
  have ex : toInt32 (clampedTL b).x = (clampedTL b).x :=
    toInt32_of_fits ⟨by omega, h.1⟩
  have ey : toInt32 (clampedTL b).y = (clampedTL b).y :=
    toInt32_of_fits ⟨by omega, h.2⟩
  show (⟨toInt32 (clampedTL b).x, toInt32 (clampedTL b).y⟩ : vec2 Int) = clampedTL b
  rw [ex, ey]

/-- When the clamped top-left corner is below `2^31` on both axes and
`max_dim` is an `int32_t`, the required list is the range between the
clamped corners. -/
theorem mem_required_iff_clamped (b : box) (max_dim zoom : Int) (id : tile_id)
    (h : (clampedTL b).x < 2147483648 ∧ (clampedTL b).y < 2147483648)
    (hd : max_dim < 2147483648) :
    id ∈ requiredTiles (tileTL b) (tileBR max_dim b) zoom ↔
      id.z = zoom ∧ (clampedTL b).x ≤ id.x ∧ id.x < (clampedBR max_dim b).x ∧
        (clampedTL b).y ≤ id.y ∧ id.y < (clampedBR max_dim b).y := by
  have h0 := clampedTL_nonneg b
  rw [mem_requiredTiles, tileTL_eq_clamped b h]
  have hbx : (clampedBR max_dim b).x < 2147483648 := lt_of_le_of_lt (min_le_left _ _) hd
  have hby : (clampedBR max_dim b).y < 2147483648 := lt_of_le_of_lt (min_le_left _ _) hd
  have ex : ∀ x : Int, 0 ≤ x → (x < (tileBR max_dim b).x ↔ x < (clampedBR max_dim b).x) :=
    fun x hx => lt_toInt32_iff (by omega) hbx
  have ey : ∀ y : Int, 0 ≤ y → (y < (tileBR max_dim b).y ↔ y < (clampedBR max_dim b).y) :=
    fun y hy => lt_toInt32_iff (by omega) hby
  constructor
  · rintro ⟨hz, hx1, hx2, hy1, hy2⟩
    exact ⟨hz, hx1, (ex _ (by omega)).1 hx2, hy1, (ey _ (by omega)).1 hy2⟩
  · rintro ⟨hz, hx1, hx2, hy1, hy2⟩
    exact ⟨hz, hx1, (ex _ (by omega)).2 hx2, hy1, (ey _ (by omega)).2 hy2⟩

/-! ## Cache lookup -/

theorem hasTile_some {tiles : List tile} {id : tile_id} {t : tile}
    (h : hasTile tiles id = some t) : t ∈ tiles ∧ t.id = id := by
  induction tiles with
  | nil => simp [hasTile] at h
  | cons a rest ih =>
    unfold hasTile at h
    split at h
    · rename_i ha
      cases h
      exact ⟨List.mem_cons_self _ _, ha⟩
    · exact ⟨List.mem_cons_of_mem _ (ih h).1, (ih h).2⟩

theorem hasTile_none_iff (tiles : List tile) (id : tile_id) :
    hasTile tiles id = none ↔ id ∉ tileIds tiles := by
  induction tiles with
  | nil => simp [hasTile, tileIds]
  | cons a rest ih =>
    unfold hasTile
    by_cases ha : a.id = id
    · simp [ha, tileIds]
    · simp only [ha, if_false, ih, tileIds, List.map_cons, List.mem_cons, not_or]
      constructor
      · intro h
        exact ⟨fun e => ha e.symm, h⟩
      · intro h
        exact h.2

theorem hasTile_isSome_iff (tiles : List tile) (id : tile_id) :
    (hasTile tiles id).isSome = true ↔ id ∈ tileIds tiles := by
  have h := hasTile_none_iff tiles id
  cases hh : hasTile tiles id with
  | none => simp [hh] at h; simp [h]
  | some t =>
    simp only [Option.isSome_some, true_iff]
    by_contra hc
    rw [h.2 hc] at hh
    cases hh

theorem hasTile_of_mem {tiles : List tile} (hnd : (tileIds tiles).Nodup) {t : tile}
    (ht : t ∈ tiles) : hasTile tiles t.id = some t := by
  induction tiles with
  | nil => cases ht
  | cons a rest ih =>
    simp only [tileIds, List.map_cons, List.nodup_cons] at hnd
    unfold hasTile
    rcases List.mem_cons.1 ht with rfl | hr
    · simp
    · have hne : a.id ≠ t.id := by
        intro e
        apply hnd.1
        rw [e]
        exact List.mem_map_of_mem _ hr
      simp only [hne, if_false]
      exact ih hnd.2 hr

theorem hasTile_eq_some_iff {tiles : List tile} (hnd : (tileIds tiles).Nodup) (id : tile_id)
    (t : tile) : hasTile tiles id = some t ↔ t ∈ tiles ∧ t.id = id := by
  constructor
  · exact hasTile_some
  · rintro ⟨h1, rfl⟩
    exact hasTile_of_mem hnd h1

theorem readyTile_hasTile (tiles : List tile) (c : tile_id) :
    readyTile (hasTile tiles c) = if isReady tiles c then some ⟨c, tile_state.ready⟩ else none := by
  unfold isReady readyTile
  cases h : hasTile tiles c with
  | none => simp
  | some t =>
    have hid := (hasTile_some h).2
    by_cases hs : t.state = tile_state.ready
    · simp only [Option.filter, hs, decide_True, if_true, Option.isSome_some]
      cases t
      simp_all
    · simp [Option.filter, hs]

theorem isReady_iff_hasTile (tiles : List tile) (c : tile_id) :
    isReady tiles c = true ↔ hasTile tiles c = some ⟨c, tile_state.ready⟩ := by
  unfold isReady readyTile
  cases h : hasTile tiles c with
  | none => simp
  | some t =>
    have hid := (hasTile_some h).2
    by_cases hs : t.state = tile_state.ready
    · cases t
      simp_all [Option.filter]
    · simp only [Option.filter, hs, decide_False, Option.isSome_none, Option.some.injEq]
      constructor
      · intro hh
        cases hh
      · intro hh
        rw [hh] at hs
        exact absurd rfl hs

theorem isReady_mem {tiles : List tile} {c : tile_id} (h : isReady tiles c = true) :
    (⟨c, tile_state.ready⟩ : tile) ∈ tiles :=
  (hasTile_some ((isReady_iff_hasTile tiles c).1 h)).1

theorem isReady_iff_mem {tiles : List tile} (hnd : (tileIds tiles).Nodup) (c : tile_id) :
    isReady tiles c = true ↔ (⟨c, tile_state.ready⟩ : tile) ∈ tiles := by
  rw [isReady_iff_hasTile, hasTile_eq_some_iff hnd]
  simp

/-! ## The loop over the children -/

theorem findLoadedChildrenBody_eq (tiles : List tile) (mcz : Int)
    (self : tile_id → List tile_id → Bool × List tile_id) (id : tile_id)
    (retain : List tile_id) :
    findLoadedChildrenBody tiles mcz self id retain =
      (tile.children id (id.z + 1)).foldl
        (childStep (isReady tiles) (fun c r => if id.z < mcz then (self c r).2 else r))
        (true, retain) := by
  unfold findLoadedChildrenBody
  show List.foldl _ _ _ = List.foldl _ _ _
  congr 1
  funext acc c
  rw [readyTile_hasTile]
  unfold childStep
  by_cases h : isReady tiles c = true <;> simp [h]

theorem childStep_fold_fst (ready : tile_id → Bool)
    (recurse : tile_id → List tile_id → List tile_id) (l : List tile_id)
    (acc : Bool × List tile_id) :
    (l.foldl (childStep ready recurse) acc).1 = (acc.1 && l.all ready) := by
  induction l generalizing acc with
  | nil => simp
  | cons c l ih =>
    rw [List.foldl_cons, ih]
    unfold childStep
    by_cases h : ready c = true <;> simp [h]

theorem childStep_fold_all_ready (ready : tile_id → Bool)
    (recurse : tile_id → List tile_id → List tile_id) (l : List tile_id)
    (acc : Bool × List tile_id) (h : ∀ c ∈ l, ready c = true) :
    l.foldl (childStep ready recurse) acc = (acc.1, l.reverse ++ acc.2) := by
  induction l generalizing acc with
  | nil => simp
  | cons c l ih =>
    rw [List.foldl_cons, ih _ (fun d hd => h d (List.mem_cons_of_mem _ hd))]
    simp [childStep, h c (List.mem_cons_self _ _)]

theorem childStep_fold_grow (ready : tile_id → Bool)
    (recurse : tile_id → List tile_id → List tile_id)
    (hgrow : ∀ c r, r <:+ recurse c r) (l : List tile_id) (acc : Bool × List tile_id) :
    acc.2 <:+ (l.foldl (childStep ready recurse) acc).2 := by
  induction l generalizing acc with
  | nil => exact List.suffix_refl _
  | cons c l ih =>
    rw [List.foldl_cons]
    refine List.IsSuffix.trans ?_ (ih _)
    unfold childStep
    by_cases h : ready c = true
    · simp only [h, if_true]
      exact List.suffix_cons _ _
    · simp only [h]
      exact hgrow c acc.2

theorem childStep_fold_mem (ready : tile_id → Bool)
    (recurse : tile_id → List tile_id → List tile_id) (Q : tile_id → tile_id → Prop)
    (l : List tile_id)
    (hrec : ∀ c ∈ l, ∀ r a, a ∈ recurse c r → a ∈ r ∨ Q c a)
    (acc : Bool × List tile_id) (a : tile_id)
    (ha : a ∈ (l.foldl (childStep ready recurse) acc).2) :
    a ∈ acc.2 ∨ ∃ c ∈ l, (ready c = true ∧ a = c) ∨ (ready c = false ∧ Q c a) := by
  induction l generalizing acc with
  | nil => exact Or.inl ha
  | cons c l ih =>
    rw [List.foldl_cons] at ha
    rcases ih (fun d hd => hrec d (List.mem_cons_of_mem _ hd)) _ ha with h | ⟨d, hd, h⟩
    · unfold childStep at h
      by_cases hc : ready c = true
      · simp only [hc, if_true, List.mem_cons] at h
        rcases h with h | h
        · exact Or.inr ⟨c, List.mem_cons_self _ _, Or.inl ⟨hc, h⟩⟩
        · exact Or.inl h
      · simp only [hc] at h
        rcases hrec c (List.mem_cons_self _ _) _ _ h with h | h
        · exact Or.inl h
        · exact Or.inr ⟨c, List.mem_cons_self _ _, Or.inr ⟨by simpa using hc, h⟩⟩
    · exact Or.inr ⟨d, List.mem_cons_of_mem _ hd, h⟩

theorem childStep_fold_agree (ready ready2 : tile_id → Bool)
    (recurse recurse2 : tile_id → List tile_id → List tile_id) (S : tile_id → Prop)
    (H1 : ∀ c, ready2 c = true → ready c = true)
    (H2 : ∀ c, S c → ready c = true → ready2 c = true)
    (hgrow : ∀ c r, r <:+ recurse c r) (l : List tile_id)
    (hrec : ∀ c ∈ l, ∀ r, (∀ a ∈ recurse c r, S a) → recurse2 c r = recurse c r)
    (acc : Bool × List tile_id)
    (hS : ∀ a ∈ (l.foldl (childStep ready recurse) acc).2, S a) :
    l.foldl (childStep ready2 recurse2) acc = l.foldl (childStep ready recurse) acc := by
  induction l generalizing acc with
  | nil => rfl
  | cons c l ih =>
    rw [List.foldl_cons, List.foldl_cons]
    rw [List.foldl_cons] at hS
    have hsub : ∀ a ∈ (childStep ready recurse acc c).2, S a := fun a ha =>
      hS a ((childStep_fold_grow ready recurse hgrow l _).subset ha)
    have hstep : childStep ready2 recurse2 acc c = childStep ready recurse acc c := by
      unfold childStep at hsub ⊢
      by_cases hc : ready c = true
      · simp only [hc, if_true] at hsub
        have h2 := H2 c (hsub c (List.mem_cons_self _ _)) hc
        simp [hc, h2]
      · have h2 : ¬ ready2 c = true := fun h => hc (H1 c h)
        simp only [hc] at hsub
        simp only [hc, h2]
        rw [hrec c (List.mem_cons_self _ _) _ hsub]
    rw [hstep]
    exact ih (fun d hd => hrec d (List.mem_cons_of_mem _ hd)) _ hS

/-! ## The children of a tile -/

theorem intRange_two (a : Int) : intRange (a * 2) ((a + 1) * 2) = [a * 2, a * 2 + 1] := by
  unfold intRange
  have h : ((a + 1) * 2 - a * 2).toNat = 2 := by omega
  rw [h]
  simp [List.range_succ]

theorem children_succ (id : tile_id) :
    tile.children id (id.z + 1) =
      [⟨id.x * 2, id.y * 2, id.z + 1⟩, ⟨id.x * 2 + 1, id.y * 2, id.z + 1⟩,
       ⟨id.x * 2, id.y * 2 + 1, id.z + 1⟩, ⟨id.x * 2 + 1, id.y * 2 + 1, id.z + 1⟩] := by
  unfold tile.children
  have h : (id.z + 1 - id.z).toNat = 1 := by omega
  simp only [h, pow_one, intRange_two]
  rfl

theorem children_z {id c : tile_id} {z : Int} (h : c ∈ tile.children id z) : c.z = z := by
  unfold tile.children at h
  simp only [List.mem_flatMap, List.mem_map] at h
  obtain ⟨_, _, _, _, rfl⟩ := h
  rfl

/-- The two quadtree functions agree: the parent of each of the four
children of a tile, taken at the zoom of the tile, is the tile. -/
theorem parent_of_child {id c : tile_id} (h : c ∈ tile.children id (id.z + 1)) :
    tile.parent c id.z = id := by
  rw [children_succ] at h
  have hp : (id.z + 1 - id.z).toNat = 1 := by omega
  simp only [List.mem_cons, List.mem_singleton, List.not_mem_nil, or_false] at h
  rcases h with rfl | rfl | rfl | rfl <;>
    · simp only [tile.parent, hp, pow_one]
      cases id
      simp only [tile_id.mk.injEq, and_true]
      constructor <;> omega

/-! ## The recursion of `findLoadedChildren` -/

theorem findLoadedChildrenFuel_succ (tiles : List tile) (mcz : Int) (fuel : Nat) (id : tile_id)
    (retain : List tile_id) :
    findLoadedChildrenFuel tiles mcz (fuel + 1) id retain =
      (tile.children id (id.z + 1)).foldl
        (childStep (isReady tiles)
          (fun c r => if id.z < mcz then (findLoadedChildrenFuel tiles mcz fuel c r).2 else r))
        (true, retain) := by
  rw [findLoadedChildrenFuel, findLoadedChildrenBody_eq]

theorem findLoadedChildrenFuel_grow (tiles : List tile) (mcz : Int) (fuel : Nat) :
    ∀ (id : tile_id) (retain : List tile_id),
      retain <:+ (findLoadedChildrenFuel tiles mcz fuel id retain).2 := by
  induction fuel with
  | zero => intro id retain; exact List.suffix_refl _
  | succ fuel ih =>
    intro id retain
    rw [findLoadedChildrenFuel_succ]
    refine childStep_fold_grow _ _ ?_ _ (true, retain)
    intro c r
    split
    · exact ih c r
    · exact List.suffix_refl _

theorem findLoadedChildrenFuel_fst (tiles : List tile) (mcz : Int) (fuel : Nat) (id : tile_id)
    (retain : List tile_id) :
    (findLoadedChildrenFuel tiles mcz (fuel + 1) id retain).1 =
      (tile.children id (id.z + 1)).all (isReady tiles) := by
  rw [findLoadedChildrenFuel_succ, childStep_fold_fst]
  simp

/-- Fuel beyond the depth the guard `z < maxCoveringZoom` allows changes
nothing: the fuel supplied by `findLoadedChildren` is never used up. -/
theorem findLoadedChildrenFuel_stable (tiles : List tile) (mcz : Int) (fuel : Nat) :
    ∀ (fuel2 : Nat) (id : tile_id) (retain : List tile_id),
      (mcz - id.z).toNat < fuel → (mcz - id.z).toNat < fuel2 →
      findLoadedChildrenFuel tiles mcz fuel id retain =
        findLoadedChildrenFuel tiles mcz fuel2 id retain := by
  induction fuel with
  | zero => intro fuel2 id retain h; omega
  | succ fuel ih =>
    intro fuel2 id retain h1 h2
    obtain ⟨k, rfl⟩ : ∃ k, fuel2 = k + 1 := ⟨fuel2 - 1, by omega⟩
    rw [findLoadedChildrenFuel_succ, findLoadedChildrenFuel_succ]
    apply List.foldl_ext
    intro acc c hc
    have hz := children_z hc
    unfold childStep
    by_cases hg : id.z < mcz
    · simp only [hg, if_true]
      rw [ih k c acc.2 (by omega) (by omega)]
    · simp only [hg, if_false]

theorem findLoadedChildren_stable (tiles : List tile) (id : tile_id) (mcz : Int)
    (retain : List tile_id) (fuel : Nat) (h : (mcz - id.z).toNat < fuel) :
    findLoadedChildrenFuel tiles mcz fuel id retain = findLoadedChildren tiles id mcz retain :=
  findLoadedChildrenFuel_stable tiles mcz fuel _ id retain h (Nat.lt_succ_self _)

theorem findLoadedChildren_fst (tiles : List tile) (id : tile_id) (mcz : Int)
    (retain : List tile_id) :
    (findLoadedChildren tiles id mcz retain).1 =
      (tile.children id (id.z + 1)).all (isReady tiles) :=
  findLoadedChildrenFuel_fst tiles mcz _ id retain

theorem findLoadedChildren_grow (tiles : List tile) (id : tile_id) (mcz : Int)
    (retain : List tile_id) : retain <:+ (findLoadedChildren tiles id mcz retain).2 :=
  findLoadedChildrenFuel_grow tiles mcz _ id retain

/-- Induction over the search: whatever holds of a ready child, and passes
from a child that is not ready to its parent, holds of every id the search
adds to `retain`. -/
theorem findLoadedChildrenFuel_mem (tiles : List tile) (mcz : Int)
    (P : tile_id → tile_id → Prop)
    (hbase : ∀ id c, c ∈ tile.children id (id.z + 1) → isReady tiles c = true → P id c)
    (hstep : ∀ id c d, c ∈ tile.children id (id.z + 1) → isReady tiles c = false →
      id.z < mcz → P c d → P id d)
    (fuel : Nat) :
    ∀ (id : tile_id) (retain : List tile_id) (a : tile_id),
      a ∈ (findLoadedChildrenFuel tiles mcz fuel id retain).2 → a ∈ retain ∨ P id a := by
  induction fuel with
  | zero => intro id retain a h; exact Or.inl h
  | succ fuel ih =>
    intro id retain a h
    rw [findLoadedChildrenFuel_succ] at h
    have hm := childStep_fold_mem (isReady tiles) _ (fun c d => id.z < mcz ∧ P c d)
      (tile.children id (id.z + 1)) ?_ (true, retain) a h
    · rcases hm with hm | ⟨c, hc, ⟨hr, rfl⟩ | ⟨hr, hg, hp⟩⟩
      · exact Or.inl hm
      · exact Or.inr (hbase id a hc hr)
      · exact Or.inr (hstep id c a hc hr hg hp)
    · intro c _ r b hb
      by_cases hg : id.z < mcz
      · simp only [hg, if_true] at hb
        rcases ih c r b hb with h1 | h1
        · exact Or.inl h1
        · exact Or.inr ⟨hg, h1⟩
      · simp only [hg, if_false] at hb
        exact Or.inl hb

theorem findLoadedChildrenFuel_agree (tiles tiles2 : List tile) (mcz : Int) (S : tile_id → Prop)
    (H1 : ∀ c, isReady tiles2 c = true → isReady tiles c = true)
    (H2 : ∀ c, S c → isReady tiles c = true → isReady tiles2 c = true) (fuel : Nat) :
    ∀ (id : tile_id) (retain : List tile_id),
      (∀ a ∈ (findLoadedChildrenFuel tiles mcz fuel id retain).2, S a) →
      findLoadedChildrenFuel tiles2 mcz fuel id retain =
        findLoadedChildrenFuel tiles mcz fuel id retain := by
  induction fuel with
  | zero => intro id retain _; rfl
  | succ fuel ih =>
    intro id retain hS
    rw [findLoadedChildrenFuel_succ] at hS ⊢
    rw [findLoadedChildrenFuel_succ]
    refine childStep_fold_agree _ _ _ _ S H1 H2 ?_ _ ?_ _ hS
    · intro c r
      split
      · exact findLoadedChildrenFuel_grow tiles mcz fuel c r
      · exact List.suffix_refl _
    · intro c _ r hr
      by_cases hg : id.z < mcz
      · simp only [hg, if_true] at hr ⊢
        rw [ih c r hr]
      · simp only [hg, if_false]

/-! ## The loop of `findLoadedParent` -/

theorem findLoadedParentLoop_succ (tiles : List tile) (id : tile_id) (mincz : Int) (fuel : Nat)
    (z : Int) (retain : List tile_id) :
    findLoadedParentLoop tiles id mincz (fuel + 1) z retain =
      if z ≥ mincz then
        if isReady tiles (tile.parent id z) then (true, tile.parent id z :: retain)
        else findLoadedParentLoop tiles id mincz fuel (z - 1) retain
      else (false, retain) := by
  rw [findLoadedParentLoop, readyTile_hasTile]
  by_cases h : isReady tiles (tile.parent id z) = true <;> simp [h]

theorem findLoadedParentLoop_spec (tiles : List tile) (id : tile_id) (mincz : Int) (fuel : Nat) :
    ∀ (z : Int) (retain : List tile_id), (z + 1 - mincz).toNat ≤ fuel →
      (∃ k, mincz ≤ k ∧ k ≤ z ∧ isReady tiles (tile.parent id k) = true ∧
        (∀ j, k < j → j ≤ z → isReady tiles (tile.parent id j) = false) ∧
        findLoadedParentLoop tiles id mincz fuel z retain = (true, tile.parent id k :: retain)) ∨
      ((∀ j, mincz ≤ j → j ≤ z → isReady tiles (tile.parent id j) = false) ∧
        findLoadedParentLoop tiles id mincz fuel z retain = (false, retain)) := by
  induction fuel with
  | zero =>
    intro z retain h
    right
    exact ⟨fun j h1 h2 => by omega, rfl⟩
  | succ fuel ih =>
    intro z retain h
    rw [findLoadedParentLoop_succ]
    by_cases hz : z ≥ mincz
    · by_cases hr : isReady tiles (tile.parent id z) = true
      · left
        refine ⟨z, hz, le_refl _, hr, fun j h1 h2 => by omega, ?_⟩
        simp [hz, hr]
      · simp only [hz, hr, if_true]
        rcases ih (z - 1) retain (by omega) with ⟨k, h1, h2, h3, h4, h5⟩ | ⟨h1, h2⟩
        · left
          refine ⟨k, h1, by omega, h3, fun j hj1 hj2 => ?_, by simpa using h5⟩
          by_cases hjz : j = z
          · subst hjz
            simpa using hr
          · exact h4 j hj1 (by omega)
        · right
          refine ⟨fun j hj1 hj2 => ?_, by simpa using h2⟩
          by_cases hjz : j = z
          · subst hjz
            simpa using hr
          · exact h1 j hj1 (by omega)
    · right
      refine ⟨fun j h1 h2 => by omega, by simp [hz]⟩

/-- Fuel beyond the number of iterations left changes nothing: the loop
always ends through its guard `z >= minCoveringZoom` or its `return true`. -/
theorem findLoadedParentLoop_stable (tiles : List tile) (id : tile_id) (mincz : Int)
    (fuel : Nat) :
    ∀ (fuel2 : Nat) (z : Int) (retain : List tile_id),
      (z + 1 - mincz).toNat ≤ fuel → (z + 1 - mincz).toNat ≤ fuel2 →
      findLoadedParentLoop tiles id mincz fuel z retain =
        findLoadedParentLoop tiles id mincz fuel2 z retain := by
  induction fuel with
  | zero =>
    intro fuel2 z retain h1 _
    cases fuel2 with
    | zero => rfl
    | succ k =>
      rw [findLoadedParentLoop_succ, if_neg (by omega)]
      rfl
  | succ fuel ih =>
    intro fuel2 z retain h1 h2
    cases fuel2 with
    | zero =>
      rw [findLoadedParentLoop_succ, if_neg (by omega)]
      rfl
    | succ k =>
      rw [findLoadedParentLoop_succ, findLoadedParentLoop_succ]
      by_cases hz : z ≥ mincz
      · rw [if_pos hz, if_pos hz, ih k (z - 1) retain (by omega) (by omega)]
      · rw [if_neg hz, if_neg hz]

theorem findLoadedParentLoop_grow (tiles : List tile) (id : tile_id) (mincz : Int) (fuel : Nat) :
    ∀ (z : Int) (retain : List tile_id),
      retain <:+ (findLoadedParentLoop tiles id mincz fuel z retain).2 := by
  induction fuel with
  | zero => intro z retain; exact List.suffix_refl _
  | succ fuel ih =>
    intro z retain
    rw [findLoadedParentLoop_succ]
    split
    · split
      · exact List.suffix_cons _ _
      · exact ih _ _
    · exact List.suffix_refl _

theorem findLoadedParentLoop_agree (tiles tiles2 : List tile) (id : tile_id) (mincz : Int)
    (S : tile_id → Prop)
    (H1 : ∀ c, isReady tiles2 c = true → isReady tiles c = true)
    (H2 : ∀ c, S c → isReady tiles c = true → isReady tiles2 c = true) (fuel : Nat) :
    ∀ (z : Int) (retain : List tile_id),
      (∀ a ∈ (findLoadedParentLoop tiles id mincz fuel z retain).2, S a) →
      findLoadedParentLoop tiles2 id mincz fuel z retain =
        findLoadedParentLoop tiles id mincz fuel z retain := by
  induction fuel with
  | zero => intro z retain _; rfl
  | succ fuel ih =>
    intro z retain hS
    rw [findLoadedParentLoop_succ] at hS ⊢
    rw [findLoadedParentLoop_succ]
    by_cases hz : z ≥ mincz
    · by_cases hr : isReady tiles (tile.parent id z) = true
      · simp only [hz, hr, if_true] at hS
        have h2 := H2 _ (hS _ (List.mem_cons_self _ _)) hr
        simp [hz, hr, h2]
      · have h2 : ¬ isReady tiles2 (tile.parent id z) = true := fun h => hr (H1 _ h)
        simp only [hz, hr, if_true] at hS
        simp only [hz, hr, h2, if_true]
        exact ih _ _ hS
    · simp [hz]

theorem findLoadedParent_grow (tiles : List tile) (id : tile_id) (mincz : Int)
    (retain : List tile_id) : retain <:+ (findLoadedParent tiles id mincz retain).2 :=
  findLoadedParentLoop_grow tiles id mincz _ _ retain

/-! ## Writes to the cache list -/

theorem addTile_snd_id (tiles : List tile) (id : tile_id) : (addTile tiles id).2.id = id := by
  unfold addTile
  cases h : hasTile tiles id with
  | none => rfl
  | some t => exact (hasTile_some h).2

theorem hasTile_addTile (tiles : List tile) (id c : tile_id) :
    hasTile (addTile tiles id).1 c =
      if c = id then some (addTile tiles id).2 else hasTile tiles c := by
  unfold addTile
  cases h : hasTile tiles id with
  | none =>
    by_cases hc : c = id
    · subst hc
      simp [hasTile]
    · have hc2 : ¬ id = c := fun e => hc e.symm
      simp [hasTile, hc, hc2]
  | some t =>
    by_cases hc : c = id
    · subst hc
      simp [h]
    · simp [hc]

theorem hasTile_setState (tiles : List tile) (id c : tile_id) (s : tile_state) :
    hasTile (setState tiles id s) c =
      if c = id then (hasTile tiles id).map (fun t => ⟨t.id, s⟩) else hasTile tiles c := by
  induction tiles with
  | nil => simp [setState, hasTile]
  | cons a rest ih =>
    unfold setState
    by_cases ha : a.id = id
    · by_cases hc : c = id
      · subst hc
        simp [ha, hasTile]
      · have hne : ¬ a.id = c := fun e => hc (e.symm.trans ha)
        have hne2 : ¬ id = c := fun e => hc e.symm
        simp [ha, hasTile, hc, hne2]
    · by_cases hc : c = id
      · subst hc
        simp only [ha, if_false, hasTile, if_true] at ih ⊢
        exact ih
      · simp only [ha, if_false, hc] at ih ⊢
        unfold hasTile
        split
        · rfl
        · exact ih

theorem tileIds_setState (tiles : List tile) (id : tile_id) (s : tile_state) :
    tileIds (setState tiles id s) = tileIds tiles := by
  induction tiles with
  | nil => rfl
  | cons a rest ih =>
    unfold setState
    by_cases ha : a.id = id
    · simp [ha, tileIds]
    · simp only [ha, if_false, tileIds, List.map_cons] at ih ⊢
      rw [ih]

theorem tileIds_addTile (tiles : List tile) (id : tile_id) :
    tileIds (addTile tiles id).1 = if id ∈ tileIds tiles then tileIds tiles
      else id :: tileIds tiles := by
  unfold addTile
  cases h : hasTile tiles id with
  | none =>
    have := (hasTile_none_iff tiles id).1 h
    rw [if_neg this]
    rfl
  | some t =>
    have h2 : id ∈ tileIds tiles := (hasTile_isSome_iff tiles id).1 (by simp [h])
    simp [h2]

/-! ## One iteration of the loop over `required` -/

theorem findLoadedChildren_congr {tiles tiles2 : List tile}
    (h : ∀ c, isReady tiles2 c = isReady tiles c) (id : tile_id) (mcz : Int)
    (retain : List tile_id) :
    findLoadedChildren tiles2 id mcz retain = findLoadedChildren tiles id mcz retain :=
  findLoadedChildrenFuel_agree tiles tiles2 mcz (fun _ => True)
    (fun c hc => by rw [← h c]; exact hc) (fun c _ hc => by rw [h c]; exact hc) _ id retain
    (fun _ _ => trivial)

theorem findLoadedParent_congr {tiles tiles2 : List tile}
    (h : ∀ c, isReady tiles2 c = isReady tiles c) (id : tile_id) (mincz : Int)
    (retain : List tile_id) :
    findLoadedParent tiles2 id mincz retain = findLoadedParent tiles id mincz retain :=
  findLoadedParentLoop_agree tiles tiles2 id mincz (fun _ => True)
    (fun c hc => by rw [← h c]; exact hc) (fun c _ hc => by rw [h c]; exact hc) _ _ retain
    (fun _ _ => trivial)

theorem retainStep_congr {tiles tiles2 : List tile}
    (h : ∀ c, isReady tiles2 c = isReady tiles c) (mcz mincz : Int) (retain : List tile_id)
    (id : tile_id) : retainStep tiles2 mcz mincz retain id = retainStep tiles mcz mincz retain id := by
  unfold retainStep
  simp only [h id, findLoadedChildren_congr h, findLoadedParent_congr h]

theorem retainStep_grow (tiles : List tile) (mcz mincz : Int) (retain : List tile_id)
    (id : tile_id) : retain <:+ retainStep tiles mcz mincz retain id := by
  unfold retainStep
  split
  · exact List.suffix_refl _
  · simp only
    split
    · exact (findLoadedChildren_grow _ _ _ _).trans (findLoadedParent_grow _ _ _ _)
    · exact findLoadedChildren_grow _ _ _ _

theorem isReady_congr {tiles tiles2 : List tile} {c : tile_id}
    (h : hasTile tiles2 c = hasTile tiles c) : isReady tiles2 c = isReady tiles c := by
  unfold isReady
  rw [h]

theorem addTile_snd (tiles : List tile) (id : tile_id) :
    (addTile tiles id).2 = ⟨id, (hasTile tiles id).elim tile_state.initial tile.state⟩ := by
  unfold addTile
  cases h : hasTile tiles id with
  | none => rfl
  | some t =>
    have := (hasTile_some h).2
    cases t
    simp_all

theorem addTile_ready_iff (tiles : List tile) (id : tile_id) :
    (addTile tiles id).2.state = tile_state.ready ↔ isReady tiles id = true := by
  rw [addTile_snd, isReady_iff_hasTile]
  cases h : hasTile tiles id with
  | none => simp
  | some t =>
    have := (hasTile_some h).2
    cases t
    simp_all

theorem addTile_initial_iff (tiles : List tile) (id : tile_id) :
    (addTile tiles id).2.state = tile_state.initial ↔ needsRequest (hasTile tiles id) = true := by
  rw [addTile_snd]
  cases h : hasTile tiles id with
  | none => simp [needsRequest]
  | some t => simp [needsRequest]

theorem isReady_addTile (tiles : List tile) (id c : tile_id) :
    isReady (addTile tiles id).1 c = isReady tiles c := by
  by_cases hc : c = id
  · subst hc
    have h1 := addTile_ready_iff tiles c
    have h2 : isReady (addTile tiles c).1 c = true ↔ (addTile tiles c).2.state = tile_state.ready := by
      rw [isReady_iff_hasTile, hasTile_addTile, if_pos rfl, addTile_snd]
      simp
    rw [Bool.eq_iff_iff, h2, h1]
  · apply isReady_congr
    rw [hasTile_addTile, if_neg hc]

theorem isReady_setState_loading (tiles : List tile) (id c : tile_id)
    (h : isReady tiles id = false) :
    isReady (setState tiles id tile_state.loading) c = isReady tiles c := by
  by_cases hc : c = id
  · subst hc
    rw [h]
    cases hr : isReady (setState tiles c tile_state.loading) c with
    | false => rfl
    | true =>
      rw [isReady_iff_hasTile, hasTile_setState, if_pos rfl] at hr
      cases hh : hasTile tiles c with
      | none => simp [hh] at hr
      | some t => simp [hh] at hr
  · apply isReady_congr
    rw [hasTile_setState, if_neg hc]

theorem updateTilesStep_tiles (mcz mincz : Int) (s : loop_state) (id : tile_id) :
    (updateTilesStep mcz mincz s id).tiles =
      if needsRequest (hasTile s.tiles id) then
        setState (addTile s.tiles id).1 id tile_state.loading
      else (addTile s.tiles id).1 := by
  unfold updateTilesStep
  simp only [← addTile_initial_iff]
  split <;> rfl

theorem updateTilesStep_requests (mcz mincz : Int) (s : loop_state) (id : tile_id) :
    (updateTilesStep mcz mincz s id).requests =
      s.requests ++ (if needsRequest (hasTile s.tiles id) then [id] else []) := by
  unfold updateTilesStep
  simp only [← addTile_initial_iff]
  split <;> simp

theorem updateTilesStep_retain (mcz mincz : Int) (s : loop_state) (id : tile_id) :
    (updateTilesStep mcz mincz s id).retain = retainStep s.tiles mcz mincz s.retain id := by
  have hcongr : ∀ c, isReady (addTile s.tiles id).1 c = isReady s.tiles c :=
    isReady_addTile s.tiles id
  have hret : (updateTilesStep mcz mincz s id).retain =
      retainStep (addTile s.tiles id).1 mcz mincz s.retain id := by
    unfold updateTilesStep retainStep
    have hr := addTile_ready_iff s.tiles id
    rw [hcongr id]
    by_cases h : isReady s.tiles id = true
    · have h2 := hr.2 h
      simp only [h, h2, ne_eq, not_true_eq_false, if_false, if_true]
      split <;> rfl
    · have h2 : ¬ (addTile s.tiles id).2.state = tile_state.ready := fun e => h (hr.1 e)
      simp only [h, h2, ne_eq, not_false_eq_true, if_true]
      split <;> rfl
  rw [hret, retainStep_congr hcongr]

theorem needsRequest_not_ready {tiles : List tile} {id : tile_id}
    (h : needsRequest (hasTile tiles id) = true) : isReady tiles id = false := by
  cases hr : isReady tiles id with
  | false => rfl
  | true =>
    rw [isReady_iff_hasTile] at hr
    rw [hr] at h
    simp [needsRequest] at h

theorem loadedState_of_needsRequest {found : Option tile} (h : needsRequest found = true) :
    loadedState found = tile_state.loading := by
  cases found with
  | none => rfl
  | some t =>
    simp only [needsRequest, decide_eq_true_eq] at h
    simp [loadedState, h]

theorem loadedState_ne_initial (found : Option tile) : loadedState found ≠ tile_state.initial := by
  cases found with
  | none => simp [loadedState]
  | some t =>
    unfold loadedState
    simp only
    split
    · simp
    · assumption

theorem updateTilesStep_hasTile (mcz mincz : Int) (s : loop_state) (id c : tile_id) :
    hasTile (updateTilesStep mcz mincz s id).tiles c =
      if c = id then some ⟨id, loadedState (hasTile s.tiles id)⟩ else hasTile s.tiles c := by
  rw [updateTilesStep_tiles]
  by_cases hn : needsRequest (hasTile s.tiles id) = true
  · rw [if_pos hn, hasTile_setState, hasTile_addTile, if_pos rfl, loadedState_of_needsRequest hn]
    by_cases hc : c = id
    · simp [hc, addTile_snd_id]
    · simp [hc, hasTile_addTile]
  · rw [if_neg hn, hasTile_addTile, addTile_snd]
    by_cases hc : c = id
    · simp only [hc, if_true, Option.some.injEq, tile.mk.injEq, true_and]
      cases hh : hasTile s.tiles id with
      | none => simp [hh, needsRequest] at hn
      | some t =>
        simp only [hh, needsRequest, decide_eq_true_eq] at hn
        simp [loadedState, hn]
    · simp [hc]

theorem updateTilesStep_isReady (mcz mincz : Int) (s : loop_state) (id c : tile_id) :
    isReady (updateTilesStep mcz mincz s id).tiles c = isReady s.tiles c := by
  rw [updateTilesStep_tiles]
  by_cases hn : needsRequest (hasTile s.tiles id) = true
  · rw [if_pos hn, isReady_setState_loading, isReady_addTile]
    rw [isReady_addTile]
    exact needsRequest_not_ready hn
  · rw [if_neg hn, isReady_addTile]

theorem updateTilesStep_tileIds (mcz mincz : Int) (s : loop_state) (id : tile_id) :
    tileIds (updateTilesStep mcz mincz s id).tiles =
      if id ∈ tileIds s.tiles then tileIds s.tiles else id :: tileIds s.tiles := by
  rw [updateTilesStep_tiles]
  split
  · rw [tileIds_setState, tileIds_addTile]
  · rw [tileIds_addTile]

/-! ## The whole loop over `required` -/

theorem loop_isReady (mcz mincz : Int) (l : List tile_id) :
    ∀ (s : loop_state) (c : tile_id),
      isReady (l.foldl (updateTilesStep mcz mincz) s).tiles c = isReady s.tiles c := by
  induction l with
  | nil => intro s c; rfl
  | cons id l ih =>
    intro s c
    rw [List.foldl_cons, ih, updateTilesStep_isReady]

theorem foldl_retainStep_congr {tiles tiles2 : List tile}
    (h : ∀ c, isReady tiles2 c = isReady tiles c) (mcz mincz : Int) (l : List tile_id)
    (retain : List tile_id) :
    l.foldl (retainStep tiles2 mcz mincz) retain = l.foldl (retainStep tiles mcz mincz) retain := by
  apply List.foldl_ext
  intro r id _
  exact retainStep_congr h mcz mincz r id

theorem loop_retain (mcz mincz : Int) (l : List tile_id) :
    ∀ (s : loop_state),
      (l.foldl (updateTilesStep mcz mincz) s).retain =
        l.foldl (retainStep s.tiles mcz mincz) s.retain := by
  induction l with
  | nil => intro s; rfl
  | cons id l ih =>
    intro s
    rw [List.foldl_cons, ih, List.foldl_cons, updateTilesStep_retain]
    exact foldl_retainStep_congr (updateTilesStep_isReady mcz mincz s id) mcz mincz l _

theorem foldl_retainStep_grow (tiles : List tile) (mcz mincz : Int) (l : List tile_id) :
    ∀ (retain : List tile_id), retain <:+ l.foldl (retainStep tiles mcz mincz) retain := by
  induction l with
  | nil => intro retain; exact List.suffix_refl _
  | cons id l ih =>
    intro retain
    rw [List.foldl_cons]
    exact (retainStep_grow tiles mcz mincz retain id).trans (ih _)

theorem loop_hasTile (mcz mincz : Int) (l : List tile_id) :
    ∀ (s : loop_state) (c : tile_id),
      hasTile (l.foldl (updateTilesStep mcz mincz) s).tiles c =
        if c ∈ l then some ⟨c, loadedState (hasTile s.tiles c)⟩ else hasTile s.tiles c := by
  induction l with
  | nil => intro s c; simp
  | cons id l ih =>
    intro s c
    rw [List.foldl_cons, ih, updateTilesStep_hasTile]
    by_cases hc : c = id
    · subst hc
      simp only [if_true, List.mem_cons, true_or]
      split
      · have hne := loadedState_ne_initial (hasTile s.tiles c)
        generalize loadedState (hasTile s.tiles c) = st at hne
        simp [loadedState, hne]
      · rfl
    · simp [hc]

theorem loop_mem_tileIds (mcz mincz : Int) (l : List tile_id) (s : loop_state) (c : tile_id) :
    c ∈ tileIds (l.foldl (updateTilesStep mcz mincz) s).tiles ↔ c ∈ l ∨ c ∈ tileIds s.tiles := by
  rw [← hasTile_isSome_iff, loop_hasTile, ← hasTile_isSome_iff]
  by_cases hc : c ∈ l <;> simp [hc]

theorem loop_nodup (mcz mincz : Int) (l : List tile_id) :
    ∀ (s : loop_state), (tileIds s.tiles).Nodup →
      (tileIds (l.foldl (updateTilesStep mcz mincz) s).tiles).Nodup := by
  induction l with
  | nil => intro s h; exact h
  | cons id l ih =>
    intro s h
    rw [List.foldl_cons]
    apply ih
    rw [updateTilesStep_tileIds]
    split
    · exact h
    · rename_i hid
      exact List.nodup_cons.2 ⟨hid, h⟩

theorem loop_requests (mcz mincz : Int) (l : List tile_id) :
    ∀ (s : loop_state), l.Nodup →
      (l.foldl (updateTilesStep mcz mincz) s).requests =
        s.requests ++ l.filter (fun id => needsRequest (hasTile s.tiles id)) := by
  induction l with
  | nil => intro s _; simp
  | cons id l ih =>
    intro s hnd
    rw [List.nodup_cons] at hnd
    rw [List.foldl_cons, ih _ hnd.2, updateTilesStep_requests, List.append_assoc]
    congr 1
    have hf : l.filter (fun c => needsRequest (hasTile (updateTilesStep mcz mincz s id).tiles c)) =
        l.filter (fun c => needsRequest (hasTile s.tiles c)) := by
      apply List.filter_congr
      intro c hc
      have hne : c ≠ id := fun e => hnd.1 (e ▸ hc)
      rw [updateTilesStep_hasTile, if_neg hne]
    rw [hf, List.filter_cons]
    split <;> simp

/-! ## Eviction and sorting -/

theorem removeObsolete_fst (retain : List tile_id) (tiles : List tile) :
    (removeObsolete retain tiles).1 = tiles.filter (fun t => decide (t.id ∈ retain)) := by
  induction tiles with
  | nil => rfl
  | cons t rest ih =>
    unfold removeObsolete
    by_cases h : t.id ∈ retain <;> simp [h, ih]

theorem removeObsolete_snd (retain : List tile_id) (tiles : List tile) :
    (removeObsolete retain tiles).2 = tiles.filter (fun t => !decide (t.id ∈ retain)) := by
  induction tiles with
  | nil => rfl
  | cons t rest ih =>
    unfold removeObsolete
    by_cases h : t.id ∈ retain <;> simp [h, ih]

instance zoomOrder_total : IsTotal tile (fun a b => ¬ zoomBefore b a) :=
  ⟨fun a b => by unfold zoomBefore; omega⟩

instance zoomOrder_trans : IsTrans tile (fun a b => ¬ zoomBefore b a) :=
  ⟨fun a b c h1 h2 => by unfold zoomBefore at *; omega⟩

theorem sortTiles_perm (tiles : List tile) : (sortTiles tiles).Perm tiles :=
  List.perm_insertionSort _ tiles

theorem sortTiles_sorted (tiles : List tile) :
    (sortTiles tiles).Pairwise (fun a b => b.id.z ≤ a.id.z) := by
  have h := List.sorted_insertionSort (fun a b => ¬ zoomBefore b a) tiles
  refine List.Pairwise.imp ?_ h
  intro a b hab
  unfold zoomBefore at hab
  omega

theorem sortTiles_of_sorted {tiles : List tile}
    (h : tiles.Pairwise (fun a b => b.id.z ≤ a.id.z)) : sortTiles tiles = tiles := by
  apply List.Sorted.insertionSort_eq
  refine List.Pairwise.imp ?_ h
  intro a b hab
  unfold zoomBefore
  omega

/-- The sort is stable: the entries of one zoom level keep their order. -/
theorem sortTiles_stable (tiles : List tile) (k : Int) :
    (sortTiles tiles).filter (fun t => decide (t.id.z = k)) =
      tiles.filter (fun t => decide (t.id.z = k)) := by
  have hsub : List.Sublist (tiles.filter (fun t => decide (t.id.z = k))) (sortTiles tiles) := by
    apply List.sublist_insertionSort
    · rw [List.pairwise_filter]
      apply List.pairwise_of_forall
      intro a b ha hb
      unfold zoomBefore
      omega
    · exact List.filter_sublist _
  have hsub2 : List.Sublist (tiles.filter (fun t => decide (t.id.z = k)))
      ((sortTiles tiles).filter (fun t => decide (t.id.z = k))) := by
    have := hsub.filter (fun t => decide (t.id.z = k))
    simpa only [List.filter_filter, Bool.and_self] using this
  have hlen : ((sortTiles tiles).filter (fun t => decide (t.id.z = k))).length =
      (tiles.filter (fun t => decide (t.id.z = k))).length :=
    ((sortTiles_perm tiles).filter _).length_eq
  exact (hsub2.eq_of_length hlen.symm).symm

theorem render_eq_filter (tiles : List tile) :
    render tiles = tiles.filter (fun t => decide (t.state = tile_state.ready)) := by
  induction tiles with
  | nil => rfl
  | cons t rest ih =>
    unfold render
    by_cases h : t.state = tile_state.ready <;> simp [h, ih]

/-! ## Facts about one refresh -/

theorem updateTiles_required_eq (m : map) (tr : transform) :
    (updateTiles m tr).required =
      requiredTiles (tileTL (tr.mapCornersToBox (updateTiles m tr).zoom))
        (tileBR (maxDim (updateTiles m tr).zoom) (tr.mapCornersToBox (updateTiles m tr).zoom))
        (updateTiles m tr).zoom :=
  rfl

theorem mem_updateTiles_required (m : map) (tr : transform) (id : tile_id) :
    id ∈ (updateTiles m tr).required ↔
      id.z = (updateTiles m tr).zoom ∧
      (tileTL (tr.mapCornersToBox (updateTiles m tr).zoom)).x ≤ id.x ∧
      id.x < (tileBR (maxDim (updateTiles m tr).zoom)
        (tr.mapCornersToBox (updateTiles m tr).zoom)).x ∧
      (tileTL (tr.mapCornersToBox (updateTiles m tr).zoom)).y ≤ id.y ∧
      id.y < (tileBR (maxDim (updateTiles m tr).zoom)
        (tr.mapCornersToBox (updateTiles m tr).zoom)).y :=
  mem_requiredTiles _ _ _ id

theorem updateTiles_tiles_perm (m : map) (tr : transform) :
    (updateTiles m tr).tiles.Perm
      ((updateTiles m tr).loaded.filter (fun t => decide (t.id ∈ (updateTiles m tr).retain))) := by
  show (sortTiles (removeObsolete (updateTiles m tr).retain (updateTiles m tr).loaded).1).Perm _
  rw [removeObsolete_fst]
  exact sortTiles_perm _

theorem updateTiles_cancelled (m : map) (tr : transform) :
    (updateTiles m tr).cancelled =
      (updateTiles m tr).loaded.filter (fun t => !decide (t.id ∈ (updateTiles m tr).retain)) :=
  removeObsolete_snd _ _

theorem mem_updateTiles_tiles (m : map) (tr : transform) (t : tile) :
    t ∈ (updateTiles m tr).tiles ↔
      t ∈ (updateTiles m tr).loaded ∧ t.id ∈ (updateTiles m tr).retain := by
  rw [(updateTiles_tiles_perm m tr).mem_iff]
  simp

theorem updateTiles_loaded_hasTile (m : map) (tr : transform) (c : tile_id) :
    hasTile (updateTiles m tr).loaded c =
      if c ∈ (updateTiles m tr).required then some ⟨c, loadedState (hasTile m.tiles c)⟩
      else hasTile m.tiles c :=
  loop_hasTile _ _ _ _ c

theorem mem_updateTiles_loaded_ids (m : map) (tr : transform) (c : tile_id) :
    c ∈ tileIds (updateTiles m tr).loaded ↔
      c ∈ (updateTiles m tr).required ∨ c ∈ tileIds m.tiles :=
  loop_mem_tileIds _ _ _ _ c

theorem updateTiles_loaded_nodup (m : map) (tr : transform) (h : (tileIds m.tiles).Nodup) :
    (tileIds (updateTiles m tr).loaded).Nodup :=
  loop_nodup _ _ _ _ h

theorem updateTiles_required_nodup (m : map) (tr : transform) :
    (updateTiles m tr).required.Nodup :=
  nodup_requiredTiles _ _ _

theorem updateTiles_requests (m : map) (tr : transform) :
    (updateTiles m tr).requests =
      (updateTiles m tr).required.filter (fun id => needsRequest (hasTile m.tiles id)) := by
  have h := loop_requests (maxCoveringZoom m.max_zoom (updateTiles m tr).zoom)
    (minCoveringZoom m.min_zoom (updateTiles m tr).zoom) (updateTiles m tr).required
    ⟨m.tiles, (updateTiles m tr).required, []⟩ (updateTiles_required_nodup m tr)
  simpa using h

theorem updateTiles_retain (m : map) (tr : transform) :
    (updateTiles m tr).retain =
      (updateTiles m tr).required.foldl
        (retainStep m.tiles (maxCoveringZoom m.max_zoom (updateTiles m tr).zoom)
          (minCoveringZoom m.min_zoom (updateTiles m tr).zoom))
        (updateTiles m tr).required :=
  loop_retain _ _ _ _

theorem updateTiles_required_suffix (m : map) (tr : transform) :
    (updateTiles m tr).required <:+ (updateTiles m tr).retain := by
  rw [updateTiles_retain]
  exact foldl_retainStep_grow _ _ _ _ _

theorem updateTiles_isReady (m : map) (tr : transform) (c : tile_id) :
    isReady (updateTiles m tr).loaded c = isReady m.tiles c :=
  loop_isReady _ _ _ _ c

theorem updateTiles_tiles_nodup (m : map) (tr : transform) (h : (tileIds m.tiles).Nodup) :
    (tileIds (updateTiles m tr).tiles).Nodup := by
  have hp := (updateTiles_tiles_perm m tr).map tile.id
  have hl := updateTiles_loaded_nodup m tr h
  unfold tileIds at hl ⊢
  rw [hp.nodup_iff]
  exact hl.sublist ((List.filter_sublist _).map _)

/-! ## Invariants and substitutes -/

theorem reachable_nodup {tiles : List tile} (h : reachable tiles) : (tileIds tiles).Nodup := by
  induction h with
  | empty => exact List.nodup_nil
  | update m tr _ ih => exact updateTiles_tiles_nodup m tr ih
  | add tiles id _ ih =>
    rw [tileIds_addTile]
    split
    · exact ih
    · rename_i hid
      exact List.nodup_cons.2 ⟨hid, ih⟩
  | state tiles id s _ ih =>
    rw [tileIds_setState]
    exact ih

theorem refreshAll_nodup (trs : List transform) :
    ∀ m : map, (tileIds m.tiles).Nodup → (tileIds (m.refreshAll trs).tiles).Nodup := by
  induction trs with
  | nil => intro m h; exact h
  | cons tr rest ih =>
    intro m h
    exact ih (m.refreshed tr) (updateTiles_tiles_nodup m tr h)

theorem foldl_invariant {α β : Type} (f : β → α → β) (P : β → Prop) (l : List α)
    (hstep : ∀ b, ∀ a ∈ l, P b → P (f b a)) (b0 : β) (h0 : P b0) : P (l.foldl f b0) := by
  induction l generalizing b0 with
  | nil => exact h0
  | cons a l ih =>
    rw [List.foldl_cons]
    exact ih (fun b c hc => hstep b c (List.mem_cons_of_mem _ hc)) _
      (hstep b0 a (List.mem_cons_self _ _) h0)

theorem findLoadedChildren_all_ready (tiles : List tile) (id : tile_id) (mcz : Int)
    (retain : List tile_id) (h : ∀ c ∈ tile.children id (id.z + 1), isReady tiles c = true) :
    findLoadedChildren tiles id mcz retain =
      (true, (tile.children id (id.z + 1)).reverse ++ retain) := by
  unfold findLoadedChildren
  rw [findLoadedChildrenFuel_succ, childStep_fold_all_ready _ _ _ _ h]

theorem retainStep_all_ready (tiles : List tile) (mcz mincz : Int) (retain : List tile_id)
    (id : tile_id) (hid : isReady tiles id = false)
    (h : ∀ c ∈ tile.children id (id.z + 1), isReady tiles c = true) :
    retainStep tiles mcz mincz retain id = (tile.children id (id.z + 1)).reverse ++ retain := by
  unfold retainStep
  rw [findLoadedChildren_all_ready tiles id mcz retain h]
  simp [hid]

/-! ## Ancestors and descendants -/

theorem parent_z (id : tile_id) (z : Int) : (tile.parent id z).z = z := rfl

theorem ediv_ediv_pos (m n k : Int) (hn : 0 < n) (hk : 0 < k) : m / n / k = m / (n * k) := by
  have hnk : 0 < n * k := Int.mul_pos hn hk
  apply le_antisymm
  · rw [Int.le_ediv_iff_mul_le hnk]
    have h1 : m / n / k * k ≤ m / n := Int.ediv_mul_le _ (ne_of_gt hk)
    have h2 : m / n * n ≤ m := Int.ediv_mul_le _ (ne_of_gt hn)
    calc m / n / k * (n * k) = (m / n / k * k) * n := by ring
      _ ≤ m / n * n := Int.mul_le_mul_of_nonneg_right h1 (le_of_lt hn)
      _ ≤ m := h2
  · rw [Int.le_ediv_iff_mul_le hk, Int.le_ediv_iff_mul_le hn]
    have h3 : m / (n * k) * (n * k) ≤ m := Int.ediv_mul_le _ (ne_of_gt hnk)
    calc m / (n * k) * k * n = m / (n * k) * (n * k) := by ring
      _ ≤ m := h3

theorem parent_parent (d : tile_id) (z1 z2 : Int) (h1 : z1 ≤ z2) (h2 : z2 ≤ d.z) :
    tile.parent (tile.parent d z2) z1 = tile.parent d z1 := by
  have hsum : (d.z - z1).toNat = (d.z - z2).toNat + (z2 - z1).toNat := by omega
  have hp1 : (0 : Int) < 2 ^ (d.z - z2).toNat := by positivity
  have hp2 : (0 : Int) < 2 ^ (z2 - z1).toNat := by positivity
  simp only [tile.parent, hsum, pow_add, tile_id.mk.injEq, and_true]
  exact ⟨ediv_ediv_pos _ _ _ hp1 hp2, ediv_ediv_pos _ _ _ hp1 hp2⟩

theorem isDescendant_child {id c : tile_id} (h : c ∈ tile.children id (id.z + 1)) :
    isDescendant c id := by
  refine ⟨?_, parent_of_child h⟩
  rw [children_z h]
  omega

theorem isDescendant_trans {a b c : tile_id} (h1 : isDescendant a b) (h2 : isDescendant b c) :
    isDescendant a c := by
  refine ⟨lt_trans h2.1 h1.1, ?_⟩
  have h := parent_parent a c.z b.z (le_of_lt h2.1) (le_of_lt h1.1)
  rw [h1.2, h2.2] at h
  exact h.symm

theorem isDescendant_parent (id : tile_id) (z : Int) (h : z < id.z) :
    isDescendant id (tile.parent id z) :=
  ⟨h, rfl⟩

/-- Every id the child search adds to `retain` is ready and a strict
descendant of the tile searched. -/
theorem findLoadedChildren_mem (tiles : List tile) (id : tile_id) (mcz : Int)
    (retain : List tile_id) (a : tile_id)
    (h : a ∈ (findLoadedChildren tiles id mcz retain).2) :
    a ∈ retain ∨ (isReady tiles a = true ∧ isDescendant a id) := by
  refine findLoadedChildrenFuel_mem tiles mcz
    (fun id a => isReady tiles a = true ∧ isDescendant a id) ?_ ?_ _ id retain a h
  · intro id c hc hr
    exact ⟨hr, isDescendant_child hc⟩
  · intro id c d hc _ _ hp
    exact ⟨hp.1, isDescendant_trans hp.2 (isDescendant_child hc)⟩

/-- Every id the parent search adds to `retain` is ready and a strict
ancestor of the tile searched. -/
theorem findLoadedParent_mem (tiles : List tile) (id : tile_id) (mincz : Int)
    (retain : List tile_id) (a : tile_id)
    (h : a ∈ (findLoadedParent tiles id mincz retain).2) :
    a ∈ retain ∨ (isReady tiles a = true ∧ isDescendant id a) := by
  have hspec := findLoadedParentLoop_spec tiles id mincz
    (id.z - mincz).toNat (id.z - 1) retain (by
      have : id.z - 1 + 1 - mincz = id.z - mincz := by ring
      rw [this])
  unfold findLoadedParent at h
  rcases hspec with ⟨k, _, h2, h3, _, h5⟩ | ⟨_, h2⟩
  · rw [h5] at h
    rcases List.mem_cons.1 h with rfl | h
    · exact Or.inr ⟨h3, isDescendant_parent id k (by omega)⟩
    · exact Or.inl h
  · rw [h2] at h
    exact Or.inl h

theorem retainStep_mem (tiles : List tile) (mcz mincz : Int) (retain : List tile_id)
    (id a : tile_id) (h : a ∈ retainStep tiles mcz mincz retain id) :
    a ∈ retain ∨ (isReady tiles id = false ∧ isReady tiles a = true ∧
      (isDescendant a id ∨ isDescendant id a)) := by
  unfold retainStep at h
  by_cases hr : isReady tiles id = true
  · rw [if_pos hr] at h
    exact Or.inl h
  · have hf : isReady tiles id = false := by simpa using hr
    rw [if_neg hr] at h
    simp only at h
    split at h
    · rcases findLoadedParent_mem _ _ _ _ _ h with h1 | h1
      · rcases findLoadedChildren_mem _ _ _ _ _ h1 with h2 | h2
        · exact Or.inl h2
        · exact Or.inr ⟨hf, h2.1, Or.inl h2.2⟩
      · exact Or.inr ⟨hf, h1.1, Or.inr h1.2⟩
    · rcases findLoadedChildren_mem _ _ _ _ _ h with h2 | h2
      · exact Or.inl h2
      · exact Or.inr ⟨hf, h2.1, Or.inl h2.2⟩

/-- Every id in the retain list of a refresh is required, or is a ready
strict descendant or strict ancestor of a required tile that is not ready. -/
theorem updateTiles_retain_mem (m : map) (tr : transform) (a : tile_id)
    (h : a ∈ (updateTiles m tr).retain) :
    a ∈ (updateTiles m tr).required ∨
      ∃ id ∈ (updateTiles m tr).required, isReady m.tiles id = false ∧
        isReady m.tiles a = true ∧ (isDescendant a id ∨ isDescendant id a) := by
  rw [updateTiles_retain] at h
  revert a
  refine foldl_invariant _
    (fun (r : List tile_id) => ∀ a ∈ r, a ∈ (updateTiles m tr).required ∨
      ∃ id ∈ (updateTiles m tr).required, isReady m.tiles id = false ∧
        isReady m.tiles a = true ∧ (isDescendant a id ∨ isDescendant id a))
    _ ?_ _ ?_
  · intro r id hid hr a ha
    rcases retainStep_mem _ _ _ _ _ _ ha with h1 | h1
    · exact hr a h1
    · exact Or.inr ⟨id, hid, h1⟩
  · intro a ha
    exact Or.inl ha

/-! ## A second refresh of the same viewport -/

theorem hasTile_perm_filter {loaded tiles : List tile} {retain : List tile_id}
    (hnd : (tileIds loaded).Nodup)
    (hp : tiles.Perm (loaded.filter (fun t => decide (t.id ∈ retain)))) (c : tile_id) :
    hasTile tiles c = if c ∈ retain then hasTile loaded c else none := by
  have hnd2 : (tileIds tiles).Nodup := by
    unfold tileIds at hnd ⊢
    rw [(hp.map tile.id).nodup_iff]
    exact hnd.sublist ((List.filter_sublist _).map _)
  have hmem : ∀ t, t ∈ tiles ↔ t ∈ loaded ∧ t.id ∈ retain := by
    intro t
    rw [hp.mem_iff]
    simp
  by_cases hc : c ∈ retain
  · rw [if_pos hc]
    cases hl : hasTile loaded c with
    | none =>
      rw [hasTile_none_iff] at hl ⊢
      intro hin
      obtain ⟨t, ht, rfl⟩ := List.mem_map.1 hin
      exact hl (List.mem_map_of_mem _ ((hmem t).1 ht).1)
    | some t =>
      have ht := hasTile_some hl
      rw [hasTile_eq_some_iff hnd2]
      exact ⟨(hmem t).2 ⟨ht.1, ht.2 ▸ hc⟩, ht.2⟩
  · rw [if_neg hc, hasTile_none_iff]
    intro hin
    obtain ⟨t, ht, rfl⟩ := List.mem_map.1 hin
    exact hc ((hmem t).1 ht).2

theorem updateTilesStep_tiles_unchanged (mcz mincz : Int) (s : loop_state) (id : tile_id)
    (h : needsRequest (hasTile s.tiles id) = false) :
    (updateTilesStep mcz mincz s id).tiles = s.tiles := by
  rw [updateTilesStep_tiles, h]
  simp only [Bool.false_eq_true, if_false]
  unfold addTile
  cases hh : hasTile s.tiles id with
  | none => simp [hh, needsRequest] at h
  | some t => rfl

theorem loop_tiles_unchanged (mcz mincz : Int) (l : List tile_id) :
    ∀ (s : loop_state), (∀ id ∈ l, needsRequest (hasTile s.tiles id) = false) →
      (l.foldl (updateTilesStep mcz mincz) s).tiles = s.tiles := by
  induction l with
  | nil => intro s _; rfl
  | cons id l ih =>
    intro s h
    have h1 := updateTilesStep_tiles_unchanged mcz mincz s id (h id (List.mem_cons_self _ _))
    rw [List.foldl_cons, ih, h1]
    intro c hc
    rw [h1]
    exact h c (List.mem_cons_of_mem _ hc)

theorem retainStep_agree (tiles tiles2 : List tile) (mcz mincz : Int) (S : tile_id → Prop)
    (H1 : ∀ c, isReady tiles2 c = true → isReady tiles c = true)
    (H2 : ∀ c, S c → isReady tiles c = true → isReady tiles2 c = true)
    (retain : List tile_id) (id : tile_id) (hid : S id)
    (hS : ∀ a ∈ retainStep tiles mcz mincz retain id, S a) :
    retainStep tiles2 mcz mincz retain id = retainStep tiles mcz mincz retain id := by
  have hr : isReady tiles2 id = isReady tiles id := by
    rw [Bool.eq_iff_iff]
    exact ⟨H1 id, H2 id hid⟩
  unfold retainStep at hS ⊢
  rw [hr]
  by_cases hready : isReady tiles id = true
  · simp [hready]
  · simp only [hready, if_false] at hS ⊢
    cases hcomp : (findLoadedChildren tiles id mcz retain).1 with
    | true =>
      simp only [hcomp, Bool.not_true, Bool.false_eq_true, if_false] at hS
      have hc : findLoadedChildren tiles2 id mcz retain = findLoadedChildren tiles id mcz retain :=
        findLoadedChildrenFuel_agree tiles tiles2 mcz S H1 H2 _ id retain hS
      simp only [hc, hcomp, Bool.not_true, Bool.false_eq_true, if_false]
    | false =>
      simp only [hcomp, Bool.not_false, if_true] at hS
      have hc : findLoadedChildren tiles2 id mcz retain = findLoadedChildren tiles id mcz retain :=
        findLoadedChildrenFuel_agree tiles tiles2 mcz S H1 H2 _ id retain
          (fun a ha => hS a ((findLoadedParent_grow _ _ _ _).subset ha))
      have hp : findLoadedParent tiles2 id mincz (findLoadedChildren tiles id mcz retain).2 =
          findLoadedParent tiles id mincz (findLoadedChildren tiles id mcz retain).2 :=
        findLoadedParentLoop_agree tiles tiles2 id mincz S H1 H2 _ _ _ hS
      simp only [hc, hcomp, Bool.not_false, if_true, hp]

theorem foldl_retainStep_agree (tiles tiles2 : List tile) (mcz mincz : Int) (S : tile_id → Prop)
    (H1 : ∀ c, isReady tiles2 c = true → isReady tiles c = true)
    (H2 : ∀ c, S c → isReady tiles c = true → isReady tiles2 c = true) (l : List tile_id) :
    ∀ (retain : List tile_id), (∀ id ∈ l, S id) →
      (∀ a ∈ l.foldl (retainStep tiles mcz mincz) retain, S a) →
      l.foldl (retainStep tiles2 mcz mincz) retain = l.foldl (retainStep tiles mcz mincz) retain := by
  induction l with
  | nil => intro retain _ _; rfl
  | cons id l ih =>
    intro retain hl hS
    rw [List.foldl_cons] at hS ⊢
    rw [List.foldl_cons]
    have hstep := retainStep_agree tiles tiles2 mcz mincz S H1 H2 retain id
      (hl id (List.mem_cons_self _ _))
      (fun a ha => hS a ((foldl_retainStep_grow tiles mcz mincz l _).subset ha))
    rw [hstep]
    exact ih _ (fun c hc => hl c (List.mem_cons_of_mem _ hc)) hS

theorem refreshed_lookup (m : map) (tr : transform) (h : (tileIds m.tiles).Nodup)
    (c : tile_id) :
    hasTile (updateTiles m tr).tiles c =
      if c ∈ (updateTiles m tr).retain then hasTile (updateTiles m tr).loaded c else none :=
  hasTile_perm_filter (updateTiles_loaded_nodup m tr h) (updateTiles_tiles_perm m tr) c

theorem refreshed_no_request (m : map) (tr : transform) (h : (tileIds m.tiles).Nodup) :
    ∀ id ∈ (updateTiles m tr).required,
      needsRequest (hasTile (updateTiles m tr).tiles id) = false := by
  intro id hid
  rw [refreshed_lookup m tr h, if_pos ((updateTiles_required_suffix m tr).subset hid),
    updateTiles_loaded_hasTile, if_pos hid]
  have hne := loadedState_ne_initial (hasTile m.tiles id)
  simp [needsRequest, hne]

theorem refreshed_requests (m : map) (tr : transform) (h : (tileIds m.tiles).Nodup) :
    (updateTiles (m.refreshed tr) tr).requests = [] := by
  have hreq : (updateTiles (m.refreshed tr) tr).required = (updateTiles m tr).required := rfl
  have htiles : (m.refreshed tr).tiles = (updateTiles m tr).tiles := rfl
  rw [updateTiles_requests, hreq, htiles, List.filter_eq_nil_iff]
  intro id hid
  rw [refreshed_no_request m tr h id hid]
  simp

theorem refreshed_loaded (m : map) (tr : transform) (h : (tileIds m.tiles).Nodup) :
    (updateTiles (m.refreshed tr) tr).loaded = (updateTiles m tr).tiles :=
  loop_tiles_unchanged _ _ _ ⟨(updateTiles m tr).tiles, (updateTiles m tr).required, []⟩
    (refreshed_no_request m tr h)

theorem refreshed_retain (m : map) (tr : transform) (h : (tileIds m.tiles).Nodup) :
    (updateTiles (m.refreshed tr) tr).retain = (updateTiles m tr).retain := by
  have hlook := refreshed_lookup m tr h
  have hsuf := updateTiles_required_suffix m tr
  have hreq : (updateTiles (m.refreshed tr) tr).required = (updateTiles m tr).required := rfl
  have hzoom : (updateTiles (m.refreshed tr) tr).zoom = (updateTiles m tr).zoom := rfl
  have htiles : (m.refreshed tr).tiles = (updateTiles m tr).tiles := rfl
  have H1 : ∀ c, isReady (updateTiles m tr).tiles c = true → isReady m.tiles c = true := by
    intro c hc
    rw [isReady_iff_hasTile, hlook] at hc
    rw [← updateTiles_isReady m tr, isReady_iff_hasTile]
    split at hc
    · exact hc
    · cases hc
  have H2 : ∀ c, c ∈ (updateTiles m tr).retain → isReady m.tiles c = true →
      isReady (updateTiles m tr).tiles c = true := by
    intro c hc hr
    rw [← updateTiles_isReady m tr, isReady_iff_hasTile] at hr
    rw [isReady_iff_hasTile, hlook, if_pos hc]
    exact hr
  rw [updateTiles_retain (m.refreshed tr) tr, hreq, hzoom, htiles]
  have h1 := updateTiles_retain m tr
  have hagree := foldl_retainStep_agree m.tiles (updateTiles m tr).tiles
    (maxCoveringZoom m.max_zoom (updateTiles m tr).zoom)
    (minCoveringZoom m.min_zoom (updateTiles m tr).zoom)
    (fun c => c ∈ (updateTiles m tr).retain) H1 H2 (updateTiles m tr).required
    (updateTiles m tr).required (fun id hid => hsuf.subset hid)
    (fun a ha => by rw [h1]; exact ha)
  exact hagree.trans h1.symm

theorem refreshed_cancelled (m : map) (tr : transform) (h : (tileIds m.tiles).Nodup) :
    (updateTiles (m.refreshed tr) tr).cancelled = [] := by
  rw [updateTiles_cancelled, refreshed_loaded m tr h, refreshed_retain m tr h,
    List.filter_eq_nil_iff]
  intro t ht
  simp [((mem_updateTiles_tiles m tr t).1 ht).2]

theorem refreshed_tiles (m : map) (tr : transform) (h : (tileIds m.tiles).Nodup) :
    (updateTiles (m.refreshed tr) tr).tiles = (updateTiles m tr).tiles := by
  show sortTiles (removeObsolete (updateTiles (m.refreshed tr) tr).retain
    (updateTiles (m.refreshed tr) tr).loaded).1 = _
  rw [removeObsolete_fst, refreshed_loaded m tr h, refreshed_retain m tr h,
    List.filter_eq_self.2]
  · exact sortTiles_of_sorted (sortTiles_sorted _)
  · intro t ht
    simp [((mem_updateTiles_tiles m tr t).1 ht).2]

/-! ## The tile range and the bounding box of the four corners -/

/-- When neither left corner lies right of a right corner and neither top
corner lies below a bottom corner, the clamped corners of lines 198-201 are
those of the bounding box of all four viewport corners; when the four values
also lie in the `int32_t` range, so are the corners the code stores. -/
theorem tileRange_eq_bounding (max_dim : Int) (b : box)
    (hx1 : min b.tl.x b.bl.x ≤ min b.tr.x b.br.x) (hx2 : max b.tl.x b.bl.x ≤ max b.tr.x b.br.x)
    (hy1 : min b.tl.y b.tr.y ≤ min b.bl.y b.br.y) (hy2 : max b.tl.y b.tr.y ≤ max b.bl.y b.br.y) :
    clampedTL b = boundingTL b ∧ clampedBR max_dim b = boundingBR max_dim b ∧
    (fitsInt32 (clampedTL b).x → fitsInt32 (clampedTL b).y →
      fitsInt32 (clampedBR max_dim b).x → fitsInt32 (clampedBR max_dim b).y →
      tileTL b = boundingTL b ∧ tileBR max_dim b = boundingBR max_dim b) := by
  have e1 : min (min b.tl.x b.tr.x) (min b.bl.x b.br.x) = min b.tl.x b.bl.x := by
    rw [min_min_min_comm, min_eq_left hx1]
  have e2 : max (max b.tl.x b.tr.x) (max b.bl.x b.br.x) = max b.tr.x b.br.x := by
    rw [max_max_max_comm, max_eq_right hx2]
  have e3 : min (min b.tl.y b.tr.y) (min b.bl.y b.br.y) = min b.tl.y b.tr.y :=
    min_eq_left hy1
  have e4 : max (max b.tl.y b.tr.y) (max b.bl.y b.br.y) = max b.bl.y b.br.y :=
    max_eq_right hy2
  have hTL : clampedTL b = boundingTL b := by
    unfold clampedTL boundingTL
    rw [e1, e3]
  have hBR : clampedBR max_dim b = boundingBR max_dim b := by
    unfold clampedBR boundingBR
    rw [e2, e4]
  refine ⟨hTL, hBR, fun f1 f2 f3 f4 => ⟨?_, ?_⟩⟩
  · rw [← hTL]
    show (⟨toInt32 (clampedTL b).x, toInt32 (clampedTL b).y⟩ : vec2 Int) = clampedTL b
    rw [toInt32_of_fits f1, toInt32_of_fits f2]
  · rw [← hBR]
    show (⟨toInt32 (clampedBR max_dim b).x, toInt32 (clampedBR max_dim b).y⟩ : vec2 Int) =
      clampedBR max_dim b
    rw [toInt32_of_fits f3, toInt32_of_fits f4]

/-! ## An empty required list -/

theorem requiredTiles_eq_nil (tl br : vec2 Int) (zoom : Int) (h : br.x ≤ tl.x ∨ br.y ≤ tl.y) :
    requiredTiles tl br zoom = [] := by
  rw [List.eq_nil_iff_forall_not_mem]
  intro id hid
  rw [mem_requiredTiles] at hid
  omega

theorem updateTiles_of_required_nil (m : map) (tr : transform)
    (h : (updateTiles m tr).required = []) :
    (updateTiles m tr).retain = [] ∧ (updateTiles m tr).requests = [] ∧
    (updateTiles m tr).loaded = m.tiles ∧ (updateTiles m tr).cancelled = m.tiles ∧
    (updateTiles m tr).tiles = [] := by
  have hretain : (updateTiles m tr).retain = [] := by
    rw [updateTiles_retain, h]
    rfl
  have hloaded : (updateTiles m tr).loaded = m.tiles := by
    refine loop_tiles_unchanged _ _ (updateTiles m tr).required
      ⟨m.tiles, (updateTiles m tr).required, []⟩ ?_
    intro id hid
    rw [h] at hid
    cases hid
  refine ⟨hretain, ?_, hloaded, ?_, ?_⟩
  · rw [updateTiles_requests, h]
    rfl
  · rw [updateTiles_cancelled, hloaded, hretain]
    simp
  · have hp := updateTiles_tiles_perm m tr
    rw [hretain] at hp
    simp only [List.not_mem_nil, decide_False, List.filter_false] at hp
    exact List.Perm.eq_nil hp

/-! ## The four children -/

theorem children_length (id : tile_id) : (tile.children id (id.z + 1)).length = 4 := by
  rw [children_succ]
  rfl

theorem children_nodup (id : tile_id) : (tile.children id (id.z + 1)).Nodup := by
  rw [children_succ]
  simp only [List.nodup_cons, List.mem_cons, List.mem_singleton, tile_id.mk.injEq,
    List.not_mem_nil, List.nodup_nil, and_true, not_or, not_false_eq_true]
  omega

theorem not_mem_children_self (id : tile_id) : id ∉ tile.children id (id.z + 1) := by
  intro h
  have := children_z h
  omega

/-! ## How deep the child search reaches -/

/-- The zoom of every id the child search adds lies above the zoom of the
tile searched and at most one level above `maxCoveringZoom` (or one level
above the tile, when that is more). -/
theorem findLoadedChildren_zoom (tiles : List tile) (id : tile_id) (mcz : Int)
    (retain : List tile_id) (a : tile_id)
    (h : a ∈ (findLoadedChildren tiles id mcz retain).2) :
    a ∈ retain ∨ (id.z < a.z ∧ a.z ≤ max (id.z + 1) (mcz + 1)) := by
  refine findLoadedChildrenFuel_mem tiles mcz
    (fun id a => id.z < a.z ∧ a.z ≤ max (id.z + 1) (mcz + 1)) ?_ ?_ _ id retain a h
  · intro id c hc _
    have := children_z hc
    exact ⟨by omega, by rw [this]; exact le_max_left _ _⟩
  · intro id c d hc _ hg hp
    have hcz := children_z hc
    obtain ⟨hp1, hp2⟩ := hp
    rw [hcz] at hp1 hp2
    refine ⟨by omega, ?_⟩
    have h1 : max (id.z + 1 + 1) (mcz + 1) = mcz + 1 := max_eq_right (by omega)
    rw [h1] at hp2
    exact le_trans hp2 (le_max_right _ _)

/-- The return value of `findLoadedChildren` is the readiness of the four
direct children, and a search that returns true has covered the tile. -/
theorem findLoadedChildren_true_covered (tiles : List tile) (id : tile_id) (mcz : Int)
    (retain : List tile_id) (depth : Nat)
    (h : (findLoadedChildren tiles id mcz retain).1 = true) :
    coveredByReady tiles mcz (depth + 1) id = true := by
  rw [findLoadedChildren_fst, List.all_eq_true] at h
  unfold coveredByReady
  rw [List.all_eq_true]
  intro c hc
  have := h c hc
  unfold isReady at this
  simp [this]

/-! ## Claims -/

/-- C1 (as the code has it): when the clamped top-left corner
`max(0, floor(fmin ...))` of lines 198-199 is below `2^31` on both axes, so
that storing it into `int32_t` keeps it, the required list of `updateTiles`
has no duplicates and holds exactly the ids `(x, y, zoom)` with
`tl.x <= x < br.x` and `tl.y <= y < br.y`, `tl` and `br` being the floor and
ceiling corners of the viewport box clamped to `[0, max_dim]`
(`max_dim = 2^zoom` for a zoom from 0 to 30); every tile whose half-open unit
cell meets the half-open clamped viewport box is required, and when the box
has positive width and height the required tiles are exactly those; every
required id has `0 <= x, y < 2^zoom`; and at zoom 5 the box `[1,3) x [2,4)`
yields the four ids `(1,2,5)`, `(2,2,5)`, `(1,3,5)`, `(2,3,5)`. -/
theorem required_exact (m : map) (tr : transform)
    (hfit :
      (clampedTL (tr.mapCornersToBox (updateTiles m tr).zoom)).x < 2147483648 ∧
      (clampedTL (tr.mapCornersToBox (updateTiles m tr).zoom)).y < 2147483648) :
    (updateTiles m tr).zoom = clampZoom m.min_zoom m.max_zoom tr.getZoom ∧
    (0 ≤ (updateTiles m tr).zoom → (updateTiles m tr).zoom ≤ 30 →
      maxDim (updateTiles m tr).zoom = 2 ^ (updateTiles m tr).zoom.toNat) ∧
    (updateTiles m tr).required.Nodup ∧
    (∀ id : tile_id, id ∈ (updateTiles m tr).required ↔
      id.z = (updateTiles m tr).zoom ∧
      (clampedTL (tr.mapCornersToBox (updateTiles m tr).zoom)).x ≤ id.x ∧
      id.x < (clampedBR (maxDim (updateTiles m tr).zoom)
        (tr.mapCornersToBox (updateTiles m tr).zoom)).x ∧
      (clampedTL (tr.mapCornersToBox (updateTiles m tr).zoom)).y ≤ id.y ∧
      id.y < (clampedBR (maxDim (updateTiles m tr).zoom)
        (tr.mapCornersToBox (updateTiles m tr).zoom)).y) ∧
    (∀ id : tile_id, id.z = (updateTiles m tr).zoom →
      cellMeetsViewport id (maxDim (updateTiles m tr).zoom)
        (tr.mapCornersToBox (updateTiles m tr).zoom) →
      id ∈ (updateTiles m tr).required) ∧
    (min (tr.mapCornersToBox (updateTiles m tr).zoom).tl.x
        (tr.mapCornersToBox (updateTiles m tr).zoom).bl.x <
      max (tr.mapCornersToBox (updateTiles m tr).zoom).tr.x
        (tr.mapCornersToBox (updateTiles m tr).zoom).br.x →
     min (tr.mapCornersToBox (updateTiles m tr).zoom).tl.y
        (tr.mapCornersToBox (updateTiles m tr).zoom).tr.y <
      max (tr.mapCornersToBox (updateTiles m tr).zoom).bl.y
        (tr.mapCornersToBox (updateTiles m tr).zoom).br.y →
     ∀ id : tile_id, id ∈ (updateTiles m tr).required ↔
      id.z = (updateTiles m tr).zoom ∧
      cellMeetsViewport id (maxDim (updateTiles m tr).zoom)
        (tr.mapCornersToBox (updateTiles m tr).zoom)) ∧
    (∀ id ∈ (updateTiles m tr).required,
      0 ≤ id.x ∧ (id.x : ℚ) < (2 : ℚ) ^ (updateTiles m tr).zoom ∧
      0 ≤ id.y ∧ (id.y : ℚ) < (2 : ℚ) ^ (updateTiles m tr).zoom) ∧
    (updateTiles exampleMap exampleTransform).required =
      [⟨2, 3, 5⟩, ⟨1, 3, 5⟩, ⟨2, 2, 5⟩, ⟨1, 2, 5⟩] := by
  have hmem : ∀ id : tile_id, id ∈ (updateTiles m tr).required ↔
      id.z = (updateTiles m tr).zoom ∧
      (clampedTL (tr.mapCornersToBox (updateTiles m tr).zoom)).x ≤ id.x ∧
      id.x < (clampedBR (maxDim (updateTiles m tr).zoom)
        (tr.mapCornersToBox (updateTiles m tr).zoom)).x ∧
      (clampedTL (tr.mapCornersToBox (updateTiles m tr).zoom)).y ≤ id.y ∧
      id.y < (clampedBR (maxDim (updateTiles m tr).zoom)
        (tr.mapCornersToBox (updateTiles m tr).zoom)).y :=
    fun id => mem_required_iff_clamped _ _ _ id hfit (maxDim_lt _)
  refine ⟨rfl, fun h0 h1 => maxDim_eq _ h0 h1, nodup_requiredTiles _ _ _, hmem,
    fun id hz hcell => ?_, fun hx hy id => ?_, fun id hid => ?_, by decide⟩
  · exact (hmem id).2 ⟨hz, mem_clamped_of_cellMeetsViewport id _ _ hcell⟩
  · rw [hmem]
    constructor
    · rintro ⟨hz, hr⟩
      exact ⟨hz, cellMeetsViewport_of_mem_clamped id _ _ hx hy hr⟩
    · rintro ⟨hz, hcell⟩
      exact ⟨hz, mem_clamped_of_cellMeetsViewport id _ _ hcell⟩
  · obtain ⟨_, hx1, hx2, hy1, hy2⟩ := (hmem id).1 hid
    have h0 := clampedTL_nonneg (tr.mapCornersToBox (updateTiles m tr).zoom)
    have hd := maxDim_le_zpow (updateTiles m tr).zoom
    have hx3 : id.x < maxDim (updateTiles m tr).zoom := lt_of_lt_of_le hx2 (min_le_left _ _)
    have hy3 : id.y < maxDim (updateTiles m tr).zoom := lt_of_lt_of_le hy2 (min_le_left _ _)
    have hx4 : (id.x : ℚ) < maxDim (updateTiles m tr).zoom := by exact_mod_cast hx3
    have hy4 : (id.y : ℚ) < maxDim (updateTiles m tr).zoom := by exact_mod_cast hy3
    exact ⟨le_trans h0.1 hx1, lt_of_lt_of_le hx4 hd, le_trans h0.2 hy1, lt_of_lt_of_le hy4 hd⟩

/-- Witness for C1: the example viewport `[1,3) x [2,4)` at zoom 5. -/
theorem required_exact_witness :
    ((clampedTL (exampleTransform.mapCornersToBox
        (updateTiles exampleMap exampleTransform).zoom)).x < 2147483648 ∧
      (clampedTL (exampleTransform.mapCornersToBox
        (updateTiles exampleMap exampleTransform).zoom)).y < 2147483648) ∧
    (updateTiles exampleMap exampleTransform).required.Nodup ∧
    (∀ id ∈ (updateTiles exampleMap exampleTransform).required,
      0 ≤ id.x ∧ (id.x : ℚ) < (2 : ℚ) ^ (updateTiles exampleMap exampleTransform).zoom ∧
      0 ≤ id.y ∧ (id.y : ℚ) < (2 : ℚ) ^ (updateTiles exampleMap exampleTransform).zoom) :=
  ⟨by decide, (required_exact exampleMap exampleTransform (by decide)).2.2.1,
    (required_exact exampleMap exampleTransform (by decide)).2.2.2.2.2.2.1⟩

/-- Counterexample to C1 as stated.  A viewport of no extent at the point
`(3/2, 5/2)` requires the tile `(1,2,5)` although the half-open clamped box
is empty and meets no cell.  A viewport whose left edge is at `3000000000`
gets `tl.x` equal to the least `int32_t`, so the tile `(-1,2,5)` with a
negative coordinate is required. -/
theorem required_not_cells_of_box :
    (updateTiles exampleMap examplePointTransform).required = [⟨1, 2, 5⟩] ∧
    ¬ cellMeetsViewport ⟨1, 2, 5⟩ (maxDim 5) (examplePointTransform.mapCornersToBox 5) ∧
    tileTL (exampleFarTransform.mapCornersToBox 5) = ⟨-2147483648, 2⟩ ∧
    tileBR (maxDim 5) (exampleFarTransform.mapCornersToBox 5) = ⟨32, 4⟩ ∧
    (⟨-1, 2, 5⟩ : tile_id) ∈ (updateTiles exampleMap exampleFarTransform).required := by
  have fx : ⌊min (3 / 2 : ℚ) (3 / 2)⌋ = 1 := by
    rw [min_self, Int.floor_eq_iff]
    norm_num
  have fy : ⌊min (5 / 2 : ℚ) (5 / 2)⌋ = 2 := by
    rw [min_self, Int.floor_eq_iff]
    norm_num
  have cx : ⌈max (3 / 2 : ℚ) (3 / 2)⌉ = 2 := by
    rw [max_self, Int.ceil_eq_iff]
    norm_num
  have cy : ⌈max (5 / 2 : ℚ) (5 / 2)⌉ = 3 := by
    rw [max_self, Int.ceil_eq_iff]
    norm_num
  have hz : (updateTiles exampleMap examplePointTransform).zoom = 5 := by decide
  have hTL : tileTL (examplePointTransform.mapCornersToBox 5) = ⟨1, 2⟩ := by
    show (⟨toInt32 (max 0 ⌊min (3 / 2 : ℚ) (3 / 2)⌋),
      toInt32 (max 0 ⌊min (5 / 2 : ℚ) (5 / 2)⌋)⟩ : vec2 Int) = ⟨1, 2⟩
    rw [fx, fy]
    decide
  have hBR : tileBR (maxDim 5) (examplePointTransform.mapCornersToBox 5) = ⟨2, 3⟩ := by
    show (⟨toInt32 (min (maxDim 5) ⌈max (3 / 2 : ℚ) (3 / 2)⌉),
      toInt32 (min (maxDim 5) ⌈max (5 / 2 : ℚ) (5 / 2)⌉)⟩ : vec2 Int) = ⟨2, 3⟩
    rw [cx, cy]
    decide
  refine ⟨?_, ?_, by decide, by decide, ?_⟩
  · rw [updateTiles_required_eq, hz, hTL, hBR]
    decide
  · rintro ⟨p, q, _, _, _, _, h5, h6, _, _⟩
    have h7 : (3 / 2 : ℚ) ≤ p := le_trans (le_of_eq (by norm_num [examplePointTransform])) h5
    have h8 : p < (3 / 2 : ℚ) :=
      lt_of_lt_of_le h6 (le_trans (min_le_right _ _)
        (le_of_eq (by norm_num [examplePointTransform])))
    linarith
  · rw [mem_updateTiles_required]
    decide

/-- C2: `updateTiles` keeps exactly the cache entries whose id is in the
retain list of that refresh and calls `cancel()` on exactly the others, once
each: the cache on return is a permutation of the kept entries, the cancel
log is the list of removed entries, every entry present when `remove_if`
starts is either kept or cancelled, an id cached before the call is gone
afterwards if and only if it is not in retain, no cancelled entry survives,
and every cached id is in retain. -/
theorem eviction_exact (m : map) (tr : transform) :
    (∀ c, c ∈ tileIds (updateTiles m tr).loaded ↔
      c ∈ (updateTiles m tr).required ∨ c ∈ tileIds m.tiles) ∧
    (updateTiles m tr).tiles.Perm
      ((updateTiles m tr).loaded.filter (fun t => decide (t.id ∈ (updateTiles m tr).retain))) ∧
    (updateTiles m tr).cancelled =
      (updateTiles m tr).loaded.filter (fun t => !decide (t.id ∈ (updateTiles m tr).retain)) ∧
    (∀ t, (updateTiles m tr).cancelled.count t + (updateTiles m tr).tiles.count t =
      (updateTiles m tr).loaded.count t) ∧
    (∀ c ∈ tileIds m.tiles,
      c ∉ tileIds (updateTiles m tr).tiles ↔ c ∉ (updateTiles m tr).retain) ∧
    (∀ t ∈ (updateTiles m tr).cancelled,
      t.id ∉ (updateTiles m tr).retain ∧ t ∉ (updateTiles m tr).tiles) ∧
    (∀ t ∈ (updateTiles m tr).tiles, t.id ∈ (updateTiles m tr).retain) := by
  have hperm := updateTiles_tiles_perm m tr
  have hcan := updateTiles_cancelled m tr
  have hmem : ∀ t ∈ (updateTiles m tr).tiles, t.id ∈ (updateTiles m tr).retain :=
    fun t ht => ((mem_updateTiles_tiles m tr t).1 ht).2
  have hcmem : ∀ t ∈ (updateTiles m tr).cancelled, t.id ∉ (updateTiles m tr).retain := by
    intro t ht
    rw [hcan, List.mem_filter] at ht
    simpa using ht.2
  refine ⟨mem_updateTiles_loaded_ids m tr, hperm, hcan, ?_, ?_, ?_, hmem⟩
  · intro t
    rw [hcan, hperm.count_eq, Nat.add_comm, ← List.count_append]
    exact (List.filter_append_perm _ _).count_eq t
  · intro c hc
    rw [not_iff_not]
    constructor
    · intro h
      obtain ⟨t, ht, rfl⟩ := List.mem_map.1 h
      exact hmem t ht
    · intro h
      have hl : c ∈ tileIds (updateTiles m tr).loaded :=
        (mem_updateTiles_loaded_ids m tr c).2 (Or.inr hc)
      obtain ⟨t, ht, rfl⟩ := List.mem_map.1 hl
      exact List.mem_map_of_mem _ ((mem_updateTiles_tiles m tr t).2 ⟨ht, h⟩)
  · intro t ht
    exact ⟨hcmem t ht, fun h => hcmem t ht (hmem t h)⟩

/-- C3: cache uniqueness is an invariant.  If no two entries of the cache
share an id, then none do after `addTile(id)` for any id, after `updateTiles`
for any viewport, or after any sequence of refreshes; and every cache list
reachable from the empty one has pairwise distinct ids. -/
theorem cache_ids_unique (m : map) (h : (tileIds m.tiles).Nodup) :
    (∀ id, (tileIds (addTile m.tiles id).1).Nodup) ∧
    (∀ tr, (tileIds (updateTiles m tr).tiles).Nodup) ∧
    (∀ trs, (tileIds (m.refreshAll trs).tiles).Nodup) ∧
    (∀ tiles, reachable tiles → (tileIds tiles).Nodup) := by
  refine ⟨fun id => ?_, fun tr => updateTiles_tiles_nodup m tr h,
    fun trs => refreshAll_nodup trs m h, fun _ hr => reachable_nodup hr⟩
  rw [tileIds_addTile]
  split
  · exact h
  · rename_i hid
    exact List.nodup_cons.2 ⟨hid, h⟩

/-- Witness for C3 on the example cache and viewport. -/
theorem cache_ids_unique_witness :
    (tileIds exampleMap.tiles).Nodup ∧
    (tileIds (updateTiles exampleMap exampleTransform).tiles).Nodup :=
  ⟨by decide, (cache_ids_unique exampleMap (by decide)).2.1 exampleTransform⟩

/-- C4: after `updateTiles` every required id has a cache entry.  The retain
list ends with the required list it was copied from, `addTile` on an id that
is not cached pushes a new entry in state `initial`, every required id is
cached when the loop ends, and no required tile is cancelled. -/
theorem required_cached (m : map) (tr : transform) :
    (∀ id ∈ (updateTiles m tr).required, id ∈ tileIds (updateTiles m tr).tiles) ∧
    (updateTiles m tr).required <:+ (updateTiles m tr).retain ∧
    (∀ (tiles : List tile) (id : tile_id), id ∉ tileIds tiles →
      addTile tiles id = (⟨id, tile_state.initial⟩ :: tiles, ⟨id, tile_state.initial⟩)) ∧
    (∀ id ∈ (updateTiles m tr).required, id ∈ tileIds (updateTiles m tr).loaded) ∧
    (∀ t ∈ (updateTiles m tr).cancelled, t.id ∉ (updateTiles m tr).required) := by
  have hsuf := updateTiles_required_suffix m tr
  refine ⟨fun id hid => ?_, hsuf, fun tiles id hid => ?_, fun id hid => ?_, fun t ht => ?_⟩
  · have hl : id ∈ tileIds (updateTiles m tr).loaded :=
      (mem_updateTiles_loaded_ids m tr id).2 (Or.inl hid)
    obtain ⟨t, ht, rfl⟩ := List.mem_map.1 hl
    exact List.mem_map_of_mem _ ((mem_updateTiles_tiles m tr t).2 ⟨ht, hsuf.subset hid⟩)
  · unfold addTile
    rw [(hasTile_none_iff tiles id).2 hid]
  · exact (mem_updateTiles_loaded_ids m tr id).2 (Or.inl hid)
  · rw [updateTiles_cancelled, List.mem_filter] at ht
    intro hreq
    have := hsuf.subset hreq
    simp [this] at ht

/-- C5: for a cache with distinct ids, `updateTiles` calls
`platform::request` exactly once for each required tile that was absent or
`initial` before the call and for no other tile; each requested tile is
`loading` afterwards; no required tile is left `initial`; and a cached tile
that was `loading` or `ready` and survives keeps its state. -/
theorem requests_exact (m : map) (tr : transform) (h : (tileIds m.tiles).Nodup) :
    (updateTiles m tr).requests.Nodup ∧
    (∀ id, id ∈ (updateTiles m tr).requests ↔
      id ∈ (updateTiles m tr).required ∧
        (id ∉ tileIds m.tiles ∨ (⟨id, tile_state.initial⟩ : tile) ∈ m.tiles)) ∧
    (∀ id ∈ (updateTiles m tr).requests,
      (⟨id, tile_state.loading⟩ : tile) ∈ (updateTiles m tr).tiles) ∧
    (∀ id ∈ (updateTiles m tr).required,
      (⟨id, tile_state.initial⟩ : tile) ∉ (updateTiles m tr).tiles) ∧
    (∀ t ∈ m.tiles, t.state = tile_state.loading ∨ t.state = tile_state.ready →
      t.id ∈ tileIds (updateTiles m tr).tiles → t ∈ (updateTiles m tr).tiles) := by
  have hreq := updateTiles_requests m tr
  have hlnd := updateTiles_loaded_nodup m tr h
  have hneeds : ∀ id, needsRequest (hasTile m.tiles id) = true ↔
      (id ∉ tileIds m.tiles ∨ (⟨id, tile_state.initial⟩ : tile) ∈ m.tiles) := by
    intro id
    cases hh : hasTile m.tiles id with
    | none =>
      have := (hasTile_none_iff m.tiles id).1 hh
      simp [needsRequest, this]
    | some t =>
      have hin : id ∈ tileIds m.tiles := (hasTile_isSome_iff m.tiles id).1 (by simp [hh])
      have ht := hasTile_some hh
      simp only [needsRequest, decide_eq_true_eq, hin, not_true_eq_false, false_or]
      constructor
      · intro hs
        have : t = ⟨id, tile_state.initial⟩ := by
          cases t
          simp_all
        rw [← this]
        exact ht.1
      · intro hmem
        have h2 := hasTile_of_mem h hmem
        simp only at h2
        rw [hh] at h2
        cases h2
        rfl
  refine ⟨?_, fun id => ?_, fun id hid => ?_, fun id hid hmem => ?_, fun t ht hs hsurv => ?_⟩
  · rw [hreq]
    exact (updateTiles_required_nodup m tr).filter _
  · rw [hreq, List.mem_filter, hneeds]
  · rw [hreq, List.mem_filter] at hid
    have hl := updateTiles_loaded_hasTile m tr id
    rw [if_pos hid.1, loadedState_of_needsRequest hid.2] at hl
    exact (mem_updateTiles_tiles m tr _).2
      ⟨(hasTile_some hl).1, (updateTiles_required_suffix m tr).subset hid.1⟩
  · have hl := hasTile_of_mem hlnd ((mem_updateTiles_tiles m tr _).1 hmem).1
    simp only at hl
    rw [updateTiles_loaded_hasTile, if_pos hid] at hl
    simp only [Option.some.injEq, tile.mk.injEq, true_and] at hl
    exact loadedState_ne_initial _ hl
  · have hret : t.id ∈ (updateTiles m tr).retain := by
      obtain ⟨u, hu, hid⟩ := List.mem_map.1 hsurv
      rw [← hid]
      exact ((mem_updateTiles_tiles m tr u).1 hu).2
    have hl := updateTiles_loaded_hasTile m tr t.id
    rw [hasTile_of_mem h ht] at hl
    have hst : loadedState (some t) = t.state := by
      unfold loadedState
      rcases hs with hs | hs <;> simp [hs]
    have hl2 : hasTile (updateTiles m tr).loaded t.id = some t := by
      rw [hl]
      split
      · rw [hst]
      · rfl
    exact (mem_updateTiles_tiles m tr t).2 ⟨(hasTile_some hl2).1, hret⟩

/-- Witness for C5 on the example cache and viewport: the three required
tiles that are absent or initial are requested, once each. -/
theorem requests_exact_witness :
    (tileIds exampleMap.tiles).Nodup ∧
    (updateTiles exampleMap exampleTransform).requests = [⟨2, 3, 5⟩, ⟨1, 3, 5⟩, ⟨2, 2, 5⟩] ∧
    (updateTiles exampleMap exampleTransform).requests.Nodup :=
  ⟨by decide, by decide, (requests_exact exampleMap exampleTransform (by decide)).1⟩

/-- C6: refreshing twice in a row with the same viewport is idempotent.  For
a cache with distinct ids, the second `updateTiles` issues no
`platform::request`, cancels no tile, computes the same required and retain
lists, and returns the cache list exactly as the first run left it: same
entries, same states, same order. -/
theorem refresh_idempotent (m : map) (tr : transform) (h : (tileIds m.tiles).Nodup) :
    (updateTiles (m.refreshed tr) tr).requests = [] ∧
    (updateTiles (m.refreshed tr) tr).cancelled = [] ∧
    (updateTiles (m.refreshed tr) tr).tiles = (updateTiles m tr).tiles ∧
    (updateTiles (m.refreshed tr) tr).required = (updateTiles m tr).required ∧
    (updateTiles (m.refreshed tr) tr).retain = (updateTiles m tr).retain := by
  refine ⟨?_, ?_, ?_, rfl, ?_⟩
  · exact refreshed_requests m tr h
  · exact refreshed_cancelled m tr h
  · exact refreshed_tiles m tr h
  · exact refreshed_retain m tr h

/-- Witness for C6 on the example cache and viewport: the first refresh
requests three tiles and evicts one, the second changes nothing. -/
theorem refresh_idempotent_witness :
    (tileIds exampleMap.tiles).Nodup ∧
    (updateTiles exampleMap exampleTransform).requests = [⟨2, 3, 5⟩, ⟨1, 3, 5⟩, ⟨2, 2, 5⟩] ∧
    (updateTiles exampleMap exampleTransform).cancelled = [⟨⟨7, 7, 7⟩, tile_state.ready⟩] ∧
    (updateTiles (exampleMap.refreshed exampleTransform) exampleTransform).requests = [] ∧
    (updateTiles (exampleMap.refreshed exampleTransform) exampleTransform).cancelled = [] ∧
    (updateTiles (exampleMap.refreshed exampleTransform) exampleTransform).tiles =
      (updateTiles exampleMap exampleTransform).tiles :=
  ⟨by decide, by decide, by decide,
    (refresh_idempotent exampleMap exampleTransform (by decide)).1,
    (refresh_idempotent exampleMap exampleTransform (by decide)).2.1,
    (refresh_idempotent exampleMap exampleTransform (by decide)).2.2.1⟩

/-- C7: after `updateTiles` the cache list is a permutation of the surviving
entries in non-increasing zoom order; `render` paints exactly the cached
entries whose state is `ready`, each once and in list order, so the painted
sequence of the refreshed cache is zoom-descending. -/
theorem render_order (m : map) (tr : transform) :
    (updateTiles m tr).tiles.Perm
      ((updateTiles m tr).loaded.filter (fun t => decide (t.id ∈ (updateTiles m tr).retain))) ∧
    (updateTiles m tr).tiles.Pairwise (fun a b => b.id.z ≤ a.id.z) ∧
    (∀ tiles : List tile,
      render tiles = tiles.filter (fun t => decide (t.state = tile_state.ready))) ∧
    (render (updateTiles m tr).tiles).Pairwise (fun a b => b.id.z ≤ a.id.z) := by
  have hs : (updateTiles m tr).tiles.Pairwise (fun a b => b.id.z ≤ a.id.z) := sortTiles_sorted _
  refine ⟨updateTiles_tiles_perm m tr, hs, render_eq_filter, ?_⟩
  rw [render_eq_filter]
  exact hs.sublist (List.filter_sublist _)

/-- C8: children take precedence over parents.  When every required tile
that is not ready has its four children at the next zoom cached and ready,
the retain list of `updateTiles` holds no id of a zoom below the current one
(each id is at the current zoom or one above).  In any iteration of the loop
for a tile that is not ready and whose four children are ready,
`findLoadedChildren` returns true and `retain` grows by exactly those four
children: `findLoadedParent` contributes nothing and no ancestor of the tile
enters `retain`. -/
theorem children_before_parents (m : map) (tr : transform)
    (hcov : ∀ id ∈ (updateTiles m tr).required, isReady m.tiles id = false →
      ∀ c ∈ tile.children id (id.z + 1), isReady m.tiles c = true) :
    (∀ a ∈ (updateTiles m tr).retain,
      a.z = (updateTiles m tr).zoom ∨ a.z = (updateTiles m tr).zoom + 1) ∧
    (∀ a ∈ (updateTiles m tr).retain, ¬ a.z < (updateTiles m tr).zoom) ∧
    (∀ (mcz mincz : Int) (s : loop_state) (id : tile_id), isReady s.tiles id = false →
      (∀ c ∈ tile.children id (id.z + 1), isReady s.tiles c = true) →
      (findLoadedChildren (addTile s.tiles id).1 id mcz s.retain).1 = true ∧
      (updateTilesStep mcz mincz s id).retain =
        (tile.children id (id.z + 1)).reverse ++ s.retain ∧
      (∀ z, z < id.z → tile.parent id z ∈ (updateTilesStep mcz mincz s id).retain →
        tile.parent id z ∈ s.retain)) := by
  have hz : ∀ id ∈ (updateTiles m tr).required, id.z = (updateTiles m tr).zoom :=
    fun id hid => ((mem_requiredTiles _ _ _ id).1 hid).1
  have h1 : ∀ a ∈ (updateTiles m tr).retain,
      a.z = (updateTiles m tr).zoom ∨ a.z = (updateTiles m tr).zoom + 1 := by
    rw [updateTiles_retain]
    refine foldl_invariant _
      (fun (r : List tile_id) =>
        ∀ a ∈ r, a.z = (updateTiles m tr).zoom ∨ a.z = (updateTiles m tr).zoom + 1)
      _ ?_ _ ?_
    · intro r id hid hr a ha
      by_cases hready : isReady m.tiles id = true
      · unfold retainStep at ha
        rw [if_pos hready] at ha
        exact hr a ha
      · have hf : isReady m.tiles id = false := by simpa using hready
        rw [retainStep_all_ready _ _ _ _ _ hf (hcov id hid hf), List.mem_append,
          List.mem_reverse] at ha
        rcases ha with ha | ha
        · right
          rw [children_z ha, hz id hid]
        · exact hr a ha
    · intro a ha
      exact Or.inl (hz a ha)
  refine ⟨h1, fun a ha => ?_, fun mcz mincz s id hid hc => ⟨?_, ?_, ?_⟩⟩
  · rcases h1 a ha with h | h <;> omega
  · rw [findLoadedChildren_fst, List.all_eq_true]
    intro c hcm
    rw [isReady_addTile]
    exact hc c hcm
  · rw [updateTilesStep_retain]
    exact retainStep_all_ready _ _ _ _ _ hid hc
  · intro z hz hmem
    rw [updateTilesStep_retain, retainStep_all_ready _ _ _ _ _ hid hc, List.mem_append,
      List.mem_reverse] at hmem
    rcases hmem with hmem | hmem
    · have hcz := children_z hmem
      have hpz : (tile.parent id z).z = z := rfl
      omega
    · exact hmem

/-- Witness for C8: `(1,2,5)` is loading, its four children are ready and so
is its parent `(0,1,4)`; the refresh retains the tile and its children and
not the parent. -/
theorem children_before_parents_witness :
    (updateTiles exampleChildrenMap exampleTileTransform).retain =
      [⟨3, 5, 6⟩, ⟨2, 5, 6⟩, ⟨3, 4, 6⟩, ⟨2, 4, 6⟩, ⟨1, 2, 5⟩] ∧
    (∀ a ∈ (updateTiles exampleChildrenMap exampleTileTransform).retain,
      ¬ a.z < (updateTiles exampleChildrenMap exampleTileTransform).zoom) :=
  ⟨by decide, (children_before_parents exampleChildrenMap exampleTileTransform
    (by decide)).2.1⟩

/-- C9: for a cache with distinct ids, `findLoadedParent` returns true if
and only if some ancestor of `id` at a zoom from `minCoveringZoom` to
`id.z - 1` is cached and ready; when it returns true it pushes exactly one
id onto `retain`, the cached ready ancestor of greatest zoom; when it
returns false `retain` is unchanged. -/
theorem findLoadedParent_nearest (tiles : List tile) (id : tile_id) (minCoveringZoom : Int)
    (retain : List tile_id) (h : (tileIds tiles).Nodup) :
    ((findLoadedParent tiles id minCoveringZoom retain).1 = true ↔
      ∃ z, minCoveringZoom ≤ z ∧ z ≤ id.z - 1 ∧
        (⟨tile.parent id z, tile_state.ready⟩ : tile) ∈ tiles) ∧
    ((findLoadedParent tiles id minCoveringZoom retain).1 = true →
      ∃ z, minCoveringZoom ≤ z ∧ z ≤ id.z - 1 ∧
        (⟨tile.parent id z, tile_state.ready⟩ : tile) ∈ tiles ∧
        (∀ j, z < j → j ≤ id.z - 1 → (⟨tile.parent id j, tile_state.ready⟩ : tile) ∉ tiles) ∧
        (findLoadedParent tiles id minCoveringZoom retain).2 = tile.parent id z :: retain) ∧
    ((findLoadedParent tiles id minCoveringZoom retain).1 = false →
      (findLoadedParent tiles id minCoveringZoom retain).2 = retain) := by
  have hspec := findLoadedParentLoop_spec tiles id minCoveringZoom
    (id.z - minCoveringZoom).toNat (id.z - 1) retain (by
      have : id.z - 1 + 1 - minCoveringZoom = id.z - minCoveringZoom := by ring
      rw [this])
  have hnot : ∀ c, isReady tiles c = false ↔ (⟨c, tile_state.ready⟩ : tile) ∉ tiles := by
    intro c
    rw [← isReady_iff_mem h c]
    simp
  unfold findLoadedParent
  rcases hspec with ⟨k, h1, h2, h3, h4, h5⟩ | ⟨h1, h2⟩
  · rw [h5]
    have hk := (isReady_iff_mem h _).1 h3
    refine ⟨⟨fun _ => ⟨k, h1, h2, hk⟩, fun _ => rfl⟩, fun _ => ?_, fun hf => ?_⟩
    · exact ⟨k, h1, h2, hk, fun j hj1 hj2 => (hnot _).1 (h4 j hj1 hj2), rfl⟩
    · cases hf
  · rw [h2]
    refine ⟨⟨fun hf => ?_, ?_⟩, fun hf => ?_, fun _ => rfl⟩
    · cases hf
    · rintro ⟨z, hz1, hz2, hz3⟩
      exact absurd hz3 ((hnot _).1 (h1 z hz1 hz2))
    · cases hf

/-- Witness for C9: in the example cache the nearest ready ancestor of
`(1,2,5)` is `(0,1,4)`. -/
theorem findLoadedParent_nearest_witness :
    (tileIds exampleMap.tiles).Nodup ∧
    findLoadedParent exampleMap.tiles ⟨1, 2, 5⟩ 0 [] = (true, [⟨0, 1, 4⟩]) ∧
    ((findLoadedParent exampleMap.tiles ⟨1, 2, 5⟩ 0 []).1 = false →
      (findLoadedParent exampleMap.tiles ⟨1, 2, 5⟩ 0 []).2 = []) :=
  ⟨by decide, by decide,
    (findLoadedParent_nearest exampleMap.tiles ⟨1, 2, 5⟩ 0 [] (by decide)).2.2⟩

/-- C10: when `min_zoom <= max_zoom`, the zoom used by `updateTiles`,
`max_covering_zoom = min(zoom + 1, max_zoom)` and
`min_covering_zoom = max(zoom - 10, min_zoom)` all lie between `min_zoom` and
`max_zoom`, with `min_covering_zoom <= zoom <= max_covering_zoom`; and every
tile for which `updateTiles` issues `platform::request` has its zoom between
`min_zoom` and `max_zoom`. -/
theorem zoom_bounds (m : map) (tr : transform) (h : m.min_zoom ≤ m.max_zoom) :
    (updateTiles m tr).zoom = clampZoom m.min_zoom m.max_zoom tr.getZoom ∧
    m.min_zoom ≤ (updateTiles m tr).zoom ∧ (updateTiles m tr).zoom ≤ m.max_zoom ∧
    maxCoveringZoom m.max_zoom (updateTiles m tr).zoom =
      min ((updateTiles m tr).zoom + 1) m.max_zoom ∧
    minCoveringZoom m.min_zoom (updateTiles m tr).zoom =
      max ((updateTiles m tr).zoom - 10) m.min_zoom ∧
    m.min_zoom ≤ maxCoveringZoom m.max_zoom (updateTiles m tr).zoom ∧
    maxCoveringZoom m.max_zoom (updateTiles m tr).zoom ≤ m.max_zoom ∧
    m.min_zoom ≤ minCoveringZoom m.min_zoom (updateTiles m tr).zoom ∧
    minCoveringZoom m.min_zoom (updateTiles m tr).zoom ≤ m.max_zoom ∧
    minCoveringZoom m.min_zoom (updateTiles m tr).zoom ≤ (updateTiles m tr).zoom ∧
    (updateTiles m tr).zoom ≤ maxCoveringZoom m.max_zoom (updateTiles m tr).zoom ∧
    (∀ id ∈ (updateTiles m tr).requests, m.min_zoom ≤ id.z ∧ id.z ≤ m.max_zoom) := by
  have hzoom : (updateTiles m tr).zoom = clampZoom m.min_zoom m.max_zoom tr.getZoom := rfl
  have h1 : m.min_zoom ≤ (updateTiles m tr).zoom ∧ (updateTiles m tr).zoom ≤ m.max_zoom := by
    rw [hzoom]
    unfold clampZoom
    simp only
    split <;> split <;> omega
  have hreq : ∀ id ∈ (updateTiles m tr).requests, id.z = (updateTiles m tr).zoom := by
    intro id hid
    rw [updateTiles_requests, List.mem_filter] at hid
    exact ((mem_requiredTiles _ _ _ id).1 hid.1).1
  generalize (updateTiles m tr).zoom = zoom at *
  refine ⟨hzoom, h1.1, h1.2, ?_, ?_, ?_, ?_, ?_, ?_, ?_, ?_, ?_⟩
  · unfold maxCoveringZoom
    simp only
    split <;> omega
  · unfold minCoveringZoom
    simp only
    split <;> omega
  · unfold maxCoveringZoom
    simp only
    split <;> omega
  · unfold maxCoveringZoom
    simp only
    split <;> omega
  · unfold minCoveringZoom
    simp only
    split <;> omega
  · unfold minCoveringZoom
    simp only
    split <;> omega
  · unfold minCoveringZoom
    simp only
    split <;> omega
  · unfold maxCoveringZoom
    simp only
    split <;> omega
  · intro id hid
    rw [hreq id hid]
    exact h1

/-- Witness for C10 on the example cache and viewport. -/
theorem zoom_bounds_witness :
    exampleMap.min_zoom ≤ exampleMap.max_zoom ∧
    (∀ id ∈ (updateTiles exampleMap exampleTransform).requests,
      exampleMap.min_zoom ≤ id.z ∧ id.z ≤ exampleMap.max_zoom) :=
  ⟨by decide, (zoom_bounds exampleMap exampleTransform (by decide)).2.2.2.2.2.2.2.2.2.2.2⟩

/-- C11 (evaluation at a viewport turned by half a turn): lines 198-201 take
the minimum over the two left corners and the maximum over the two right
corners only.  For the corners `tl = (3,4)`, `tr = (1,4)`, `bl = (3,2)`,
`br = (1,2)` at zoom 5 the code computes `tl = (3,4)` and `br = (1,2)` and an
empty required list, while the bounding box of all four corners is
`tl = (1,2)`, `br = (3,4)`. -/
theorem tile_range_two_corners :
    tileTL (exampleRotatedTransform.mapCornersToBox 5) = ⟨3, 4⟩ ∧
    tileBR (maxDim 5) (exampleRotatedTransform.mapCornersToBox 5) = ⟨1, 2⟩ ∧
    boundingTL (exampleRotatedTransform.mapCornersToBox 5) = ⟨1, 2⟩ ∧
    boundingBR (maxDim 5) (exampleRotatedTransform.mapCornersToBox 5) = ⟨3, 4⟩ ∧
    (updateTiles exampleMap exampleRotatedTransform).zoom = 5 ∧
    (updateTiles exampleMap exampleRotatedTransform).required = [] ∧
    requiredTiles (boundingTL (exampleRotatedTransform.mapCornersToBox 5))
      (boundingBR (maxDim 5) (exampleRotatedTransform.mapCornersToBox 5)) 5 =
        [⟨2, 3, 5⟩, ⟨1, 3, 5⟩, ⟨2, 2, 5⟩, ⟨1, 2, 5⟩] := by
  decide

/-- C12 (as the code has it): `tileLoaded` never reads the tile it is handed
and runs `update()`.  For a cache with distinct ids that is as `updateTiles`
left it for the current viewport, the callback, whatever its tile, issues no
request, cancels nothing and returns the same cache list. -/
theorem tileLoaded_after_refresh (m : map) (tr : transform) (t : tile)
    (h : (tileIds m.tiles).Nodup) :
    tileLoaded (m.refreshed tr) tr t = updateTiles (m.refreshed tr) tr ∧
    (tileLoaded (m.refreshed tr) tr t).requests = [] ∧
    (tileLoaded (m.refreshed tr) tr t).cancelled = [] ∧
    (tileLoaded (m.refreshed tr) tr t).tiles = (m.refreshed tr).tiles := by
  refine ⟨rfl, ?_, ?_, ?_⟩
  · exact refreshed_requests m tr h
  · exact refreshed_cancelled m tr h
  · exact refreshed_tiles m tr h

/-- Witness for C12: the late callback for the evicted `(0,1,4)` on the
cache the refresh left. -/
theorem tileLoaded_after_refresh_witness :
    (tileIds exampleChildrenMap.tiles).Nodup ∧
    (⟨0, 1, 4⟩ : tile_id) ∉
      tileIds (exampleChildrenMap.refreshed exampleTileTransform).tiles ∧
    (tileLoaded (exampleChildrenMap.refreshed exampleTileTransform) exampleTileTransform
      ⟨⟨0, 1, 4⟩, tile_state.ready⟩).cancelled = [] ∧
    (tileLoaded (exampleChildrenMap.refreshed exampleTileTransform) exampleTileTransform
      ⟨⟨0, 1, 4⟩, tile_state.ready⟩).tiles =
        (exampleChildrenMap.refreshed exampleTileTransform).tiles :=
  ⟨by decide, by decide,
    (tileLoaded_after_refresh exampleChildrenMap exampleTileTransform
      ⟨⟨0, 1, 4⟩, tile_state.ready⟩ (by decide)).2.2.1,
    (tileLoaded_after_refresh exampleChildrenMap exampleTileTransform
      ⟨⟨0, 1, 4⟩, tile_state.ready⟩ (by decide)).2.2.2⟩

/-- Counterexample to C12 as stated: the refresh of the example cache has
evicted `(0,1,4)` and the loader has since marked `(1,2,5)` ready; `(0,1,4)`
is not in the cache, yet its late success callback cancels the four children
of `(1,2,5)` and leaves a different cache. -/
theorem tileLoaded_stale_mutates :
    exampleStaleMap.tiles =
      setState (updateTiles exampleChildrenMap exampleTileTransform).tiles ⟨1, 2, 5⟩
        tile_state.ready ∧
    (updateTiles exampleChildrenMap exampleTileTransform).cancelled =
      [⟨⟨0, 1, 4⟩, tile_state.ready⟩] ∧
    (⟨0, 1, 4⟩ : tile_id) ∉ tileIds exampleStaleMap.tiles ∧
    (tileLoaded exampleStaleMap exampleTileTransform ⟨⟨0, 1, 4⟩, tile_state.ready⟩).cancelled =
      [⟨⟨2, 4, 6⟩, tile_state.ready⟩, ⟨⟨3, 4, 6⟩, tile_state.ready⟩,
       ⟨⟨2, 5, 6⟩, tile_state.ready⟩, ⟨⟨3, 5, 6⟩, tile_state.ready⟩] ∧
    (tileLoaded exampleStaleMap exampleTileTransform ⟨⟨0, 1, 4⟩, tile_state.ready⟩).tiles =
      [⟨⟨1, 2, 5⟩, tile_state.ready⟩] ∧
    (tileLoaded exampleStaleMap exampleTileTransform ⟨⟨0, 1, 4⟩, tile_state.ready⟩).tiles ≠
      exampleStaleMap.tiles := by
  decide

/-- C13 (as the code has it): `tileFailed` leaves the map as it is.  For a
cache with distinct ids and a cached tile in state `loading`, the tile is
still cached and `loading` after the callback; the next `updateTiles` issues
no request for it, and if its id is required it is still cached and
`loading` after that refresh. -/
theorem tileFailed_stays_loading (m : map) (t : tile) (h : (tileIds m.tiles).Nodup)
    (ht : t ∈ m.tiles) (hs : t.state = tile_state.loading) :
    tileFailed m t = m ∧
    t ∈ (tileFailed m t).tiles ∧
    (∀ tr, t.id ∉ (updateTiles (tileFailed m t) tr).requests) ∧
    (∀ tr, t.id ∈ (updateTiles (tileFailed m t) tr).required →
      t ∈ (updateTiles (tileFailed m t) tr).tiles) := by
  have hlook : hasTile m.tiles t.id = some t := hasTile_of_mem h ht
  refine ⟨rfl, ht, fun tr hreq => ?_, fun tr hreq => ?_⟩
  · change t.id ∈ (updateTiles m tr).requests at hreq
    rw [updateTiles_requests, List.mem_filter, hlook] at hreq
    simp [needsRequest, hs] at hreq
  · show t ∈ (updateTiles m tr).tiles
    change t.id ∈ (updateTiles m tr).required at hreq
    have hl := updateTiles_loaded_hasTile m tr t.id
    rw [if_pos hreq, hlook] at hl
    have hst : loadedState (some t) = t.state := by simp [loadedState, hs]
    rw [hst] at hl
    exact (mem_updateTiles_tiles m tr t).2
      ⟨(hasTile_some hl).1, (updateTiles_required_suffix m tr).subset hreq⟩

/-- Witness for C13: the loading tile `(1,2,5)` of the example cache. -/
theorem tileFailed_stays_loading_witness :
    (tileIds exampleMap.tiles).Nodup ∧
    (⟨⟨1, 2, 5⟩, tile_state.loading⟩ : tile) ∈ exampleMap.tiles ∧
    (⟨⟨1, 2, 5⟩, tile_state.loading⟩ : tile) ∈
      (tileFailed exampleMap ⟨⟨1, 2, 5⟩, tile_state.loading⟩).tiles :=
  ⟨by decide, by decide,
    (tileFailed_stays_loading exampleMap ⟨⟨1, 2, 5⟩, tile_state.loading⟩ (by decide)
      (by decide) rfl).2.1⟩

/-- Counterexample to C13 as stated: after `tileFailed` for the cached
loading tile `(1,2,5)`, the next `updateTiles` requires `(1,2,5)` and issues
requests for three other tiles but none for it. -/
theorem tileFailed_no_retry :
    (⟨⟨1, 2, 5⟩, tile_state.loading⟩ : tile) ∈ exampleMap.tiles ∧
    (⟨1, 2, 5⟩ : tile_id) ∈
      (updateTiles (tileFailed exampleMap ⟨⟨1, 2, 5⟩, tile_state.loading⟩)
        exampleTransform).required ∧
    (updateTiles (tileFailed exampleMap ⟨⟨1, 2, 5⟩, tile_state.loading⟩)
      exampleTransform).requests = [⟨2, 3, 5⟩, ⟨1, 3, 5⟩, ⟨2, 2, 5⟩] ∧
    (⟨1, 2, 5⟩ : tile_id) ∉
      (updateTiles (tileFailed exampleMap ⟨⟨1, 2, 5⟩, tile_state.loading⟩)
        exampleTransform).requests := by
  decide

/-- C14: when the tile range is degenerate (`br.x <= tl.x` or `br.y <= tl.y`)
the required and retain lists are empty, `updateTiles` issues no request,
cancels every cached tile and leaves the cache empty. -/
theorem degenerate_range_empties (m : map) (tr : transform)
    (h : (tileBR (maxDim (updateTiles m tr).zoom)
          (tr.mapCornersToBox (updateTiles m tr).zoom)).x ≤
        (tileTL (tr.mapCornersToBox (updateTiles m tr).zoom)).x ∨
      (tileBR (maxDim (updateTiles m tr).zoom)
          (tr.mapCornersToBox (updateTiles m tr).zoom)).y ≤
        (tileTL (tr.mapCornersToBox (updateTiles m tr).zoom)).y) :
    (updateTiles m tr).required = [] ∧
    (updateTiles m tr).retain = [] ∧
    (updateTiles m tr).requests = [] ∧
    (updateTiles m tr).cancelled = m.tiles ∧
    (updateTiles m tr).tiles = [] := by
  have hreq : (updateTiles m tr).required = [] := requiredTiles_eq_nil _ _ _ h
  have hrest := updateTiles_of_required_nil m tr hreq
  exact ⟨hreq, hrest.1, hrest.2.1, hrest.2.2.2.1, hrest.2.2.2.2⟩

/-- Witness for C14: the viewport turned by half a turn has a degenerate
tile range; the refresh cancels the whole example cache. -/
theorem degenerate_range_empties_witness :
    (updateTiles exampleMap exampleRotatedTransform).required = [] ∧
    (updateTiles exampleMap exampleRotatedTransform).cancelled = exampleMap.tiles ∧
    (updateTiles exampleMap exampleRotatedTransform).tiles = [] :=
  ⟨(degenerate_range_empties exampleMap exampleRotatedTransform (by decide)).1,
    (degenerate_range_empties exampleMap exampleRotatedTransform (by decide)).2.2.2.1,
    (degenerate_range_empties exampleMap exampleRotatedTransform (by decide)).2.2.2.2⟩

/-- C15: quadtree round trip.  For a valid id (`0 <= x, y < 2^z`) the
children at the next zoom are exactly four distinct ids at zoom `z + 1` with
coordinates in `[0, 2^(z+1))`, and the parent of each of them at zoom `z` is
the id. -/
theorem children_parent_round_trip (id : tile_id) (hz : 0 ≤ id.z)
    (hx : 0 ≤ id.x ∧ id.x < 2 ^ id.z.toNat) (hy : 0 ≤ id.y ∧ id.y < 2 ^ id.z.toNat) :
    (tile.children id (id.z + 1)).length = 4 ∧
    (tile.children id (id.z + 1)).Nodup ∧
    (∀ c ∈ tile.children id (id.z + 1),
      c.z = id.z + 1 ∧
      0 ≤ c.x ∧ c.x < 2 ^ (id.z + 1).toNat ∧
      0 ≤ c.y ∧ c.y < 2 ^ (id.z + 1).toNat ∧
      tile.parent c id.z = id) := by
  refine ⟨children_length id, children_nodup id, fun c hc => ?_⟩
  have hpar := parent_of_child hc
  have hcz := children_z hc
  have hpow : (2 : Int) ^ (id.z + 1).toNat = 2 ^ id.z.toNat * 2 := by
    have : (id.z + 1).toNat = id.z.toNat + 1 := by omega
    rw [this, pow_succ]
  rw [hpow]
  rw [children_succ] at hc
  simp only [List.mem_cons, List.mem_singleton, List.not_mem_nil, or_false] at hc
  obtain ⟨hx0, hx1⟩ := hx
  obtain ⟨hy0, hy1⟩ := hy
  generalize (2 : Int) ^ id.z.toNat = P at hx1 hy1 ⊢
  refine ⟨hcz, ?_, ?_, ?_, ?_, hpar⟩ <;>
    rcases hc with rfl | rfl | rfl | rfl <;> simp only <;> omega

/-- Witness for C15: the tile `(1,2,5)`. -/
theorem children_parent_round_trip_witness :
    tile.children ⟨1, 2, 5⟩ 6 = [⟨2, 4, 6⟩, ⟨3, 4, 6⟩, ⟨2, 5, 6⟩, ⟨3, 5, 6⟩] ∧
    (tile.children ⟨1, 2, 5⟩ ((⟨1, 2, 5⟩ : tile_id).z + 1)).length = 4 ∧
    (∀ c ∈ tile.children ⟨1, 2, 5⟩ ((⟨1, 2, 5⟩ : tile_id).z + 1),
      tile.parent c 5 = ⟨1, 2, 5⟩) :=
  ⟨by decide,
    (children_parent_round_trip ⟨1, 2, 5⟩ (by decide) (by decide) (by decide)).1,
    fun c hc =>
      ((children_parent_round_trip ⟨1, 2, 5⟩ (by decide) (by decide) (by decide)).2.2 c hc).2.2.2.2.2⟩

/-- C16: for a cache with distinct ids in which all four children of `id` at
the next zoom are cached and ready, `findLoadedChildren` returns true and
pushes exactly those four ids onto `retain`, each once and nothing else; the
id itself is not among them. -/
theorem findLoadedChildren_four_ready (tiles : List tile) (id : tile_id)
    (maxCoveringZoom : Int) (retain : List tile_id) (h : (tileIds tiles).Nodup)
    (hready : ∀ c ∈ tile.children id (id.z + 1), (⟨c, tile_state.ready⟩ : tile) ∈ tiles) :
    findLoadedChildren tiles id maxCoveringZoom retain =
      (true, (tile.children id (id.z + 1)).reverse ++ retain) ∧
    (tile.children id (id.z + 1)).length = 4 ∧
    (tile.children id (id.z + 1)).Nodup ∧
    id ∉ tile.children id (id.z + 1) ∧
    (∀ a, a ∈ (findLoadedChildren tiles id maxCoveringZoom retain).2 ↔
      a ∈ tile.children id (id.z + 1) ∨ a ∈ retain) := by
  have hall : ∀ c ∈ tile.children id (id.z + 1), isReady tiles c = true :=
    fun c hc => (isReady_iff_mem h c).2 (hready c hc)
  have heq := findLoadedChildren_all_ready tiles id maxCoveringZoom retain hall
  refine ⟨heq, children_length id, children_nodup id, not_mem_children_self id, fun a => ?_⟩
  rw [heq]
  simp

/-- Witness for C16: `(1,2,5)` loading with its four zoom-6 children ready. -/
theorem findLoadedChildren_four_ready_witness :
    (tileIds exampleChildrenMap.tiles).Nodup ∧
    findLoadedChildren exampleChildrenMap.tiles ⟨1, 2, 5⟩ 6 [⟨1, 2, 5⟩] =
      (true, [⟨3, 5, 6⟩, ⟨2, 5, 6⟩, ⟨3, 4, 6⟩, ⟨2, 4, 6⟩, ⟨1, 2, 5⟩]) ∧
    (⟨1, 2, 5⟩ : tile_id) ∉ tile.children ⟨1, 2, 5⟩ ((⟨1, 2, 5⟩ : tile_id).z + 1) :=
  ⟨by decide, by decide,
    (findLoadedChildren_four_ready exampleChildrenMap.tiles ⟨1, 2, 5⟩ 6 [⟨1, 2, 5⟩]
      (by decide) (by decide)).2.2.2.1⟩

/-- C17 (evaluation where the found descendants cover the tile): the child
`(2,4,6)` of `(1,2,5)` is missing, its four children and the other three
children of `(1,2,5)` are ready.  The search adds all seven to `retain`, they
cover `(1,2,5)`, and `findLoadedChildren` returns false: line 148 drops the
result of the recursive call after line 145 has cleared `complete`.  The
refresh then retains the parent `(0,1,4)` as well. -/
theorem findLoadedChildren_covered_returns_false :
    coveredByReady exampleGrandchildrenMap.tiles 6 2 ⟨1, 2, 5⟩ = true ∧
    findLoadedChildren exampleGrandchildrenMap.tiles ⟨1, 2, 5⟩ 6 [] =
      (false, [⟨3, 5, 6⟩, ⟨2, 5, 6⟩, ⟨3, 4, 6⟩,
        ⟨5, 9, 7⟩, ⟨4, 9, 7⟩, ⟨5, 8, 7⟩, ⟨4, 8, 7⟩]) ∧
    coveredByReady exampleGrandchildrenMap.tiles 7 3 ⟨1, 2, 5⟩ = true ∧
    (findLoadedChildren exampleGrandchildrenMap.tiles ⟨1, 2, 5⟩ 7 []).1 = false ∧
    (updateTiles exampleGrandchildrenMap exampleTileTransform).retain =
      [⟨0, 1, 4⟩, ⟨3, 5, 6⟩, ⟨2, 5, 6⟩, ⟨3, 4, 6⟩,
        ⟨5, 9, 7⟩, ⟨4, 9, 7⟩, ⟨5, 8, 7⟩, ⟨4, 8, 7⟩, ⟨1, 2, 5⟩] := by
  decide

/-- C18 (evaluation beyond `max_covering_zoom`): at zoom 5 with
`max_covering_zoom = 6` the refresh retains the ready tile `(4,8,7)` at zoom
7, two levels above the current zoom, as a substitute for `(1,2,5)`; at zoom
14 with `max_covering_zoom = max_zoom = 14` it retains the ready tile
`(0,0,15)` above `max_zoom`.  The guard of line 146 compares the zoom of the
tile whose children are looked up, not the zoom of the children. -/
theorem retain_beyond_max_covering_zoom :
    (updateTiles exampleDeepMap exampleTileTransform).zoom = 5 ∧
    maxCoveringZoom exampleDeepMap.max_zoom 5 = 6 ∧
    (updateTiles exampleDeepMap exampleTileTransform).required = [⟨1, 2, 5⟩] ∧
    (updateTiles exampleDeepMap exampleTileTransform).retain = [⟨4, 8, 7⟩, ⟨1, 2, 5⟩] ∧
    (⟨⟨4, 8, 7⟩, tile_state.ready⟩ : tile) ∈
      (updateTiles exampleDeepMap exampleTileTransform).tiles ∧
    (updateTiles exampleMaxZoomMap exampleMaxZoomTransform).zoom = 14 ∧
    maxCoveringZoom exampleMaxZoomMap.max_zoom 14 = 14 ∧
    (updateTiles exampleMaxZoomMap exampleMaxZoomTransform).retain =
      [⟨0, 0, 15⟩, ⟨0, 0, 14⟩] ∧
    (⟨⟨0, 0, 15⟩, tile_state.ready⟩ : tile) ∈
      (updateTiles exampleMaxZoomMap exampleMaxZoomTransform).tiles := by
  decide

/-- C19: for a cache with distinct ids, every tile cached after `updateTiles`
whose id is not required is ready and is a strict descendant or a strict
ancestor of a required tile that was not ready in that refresh; and if every
required tile is ready, the cache afterwards holds exactly the required
tiles. -/
theorem substitutes_only (m : map) (tr : transform) (h : (tileIds m.tiles).Nodup) :
    (∀ t ∈ (updateTiles m tr).tiles, t.id ∉ (updateTiles m tr).required →
      t.state = tile_state.ready ∧
      ∃ id ∈ (updateTiles m tr).required, (⟨id, tile_state.ready⟩ : tile) ∉ m.tiles ∧
        (isDescendant t.id id ∨ isDescendant id t.id)) ∧
    ((∀ id ∈ (updateTiles m tr).required, (⟨id, tile_state.ready⟩ : tile) ∈ m.tiles) →
      (∀ c, c ∈ tileIds (updateTiles m tr).tiles ↔ c ∈ (updateTiles m tr).required) ∧
      (tileIds (updateTiles m tr).tiles).Perm (updateTiles m tr).required) := by
  have hlnd := updateTiles_loaded_nodup m tr h
  have hsub : ∀ t ∈ (updateTiles m tr).tiles, t.id ∉ (updateTiles m tr).required →
      t.state = tile_state.ready ∧
      ∃ id ∈ (updateTiles m tr).required, (⟨id, tile_state.ready⟩ : tile) ∉ m.tiles ∧
        (isDescendant t.id id ∨ isDescendant id t.id) := by
    intro t ht hnreq
    obtain ⟨htl, htr⟩ := (mem_updateTiles_tiles m tr t).1 ht
    rcases updateTiles_retain_mem m tr t.id htr with hr | ⟨id, hid, hnr, hra, hrel⟩
    · exact absurd hr hnreq
    · refine ⟨?_, id, hid, ?_, hrel⟩
      · rw [← updateTiles_isReady m tr, isReady_iff_hasTile, hasTile_of_mem hlnd htl] at hra
        exact congrArg tile.state (Option.some.inj hra)
      · intro hmem
        rw [(isReady_iff_mem h id).2 hmem] at hnr
        cases hnr
  refine ⟨hsub, fun hall => ?_⟩
  have hiff : ∀ c, c ∈ tileIds (updateTiles m tr).tiles ↔ c ∈ (updateTiles m tr).required := by
    intro c
    constructor
    · intro hc
      obtain ⟨t, ht, rfl⟩ := List.mem_map.1 hc
      by_contra hn
      obtain ⟨_, id, hid, hnr, _⟩ := hsub t ht hn
      exact hnr (hall id hid)
    · intro hc
      have hl : c ∈ tileIds (updateTiles m tr).loaded :=
        (mem_updateTiles_loaded_ids m tr c).2 (Or.inl hc)
      obtain ⟨t, ht, rfl⟩ := List.mem_map.1 hl
      exact List.mem_map_of_mem _ ((mem_updateTiles_tiles m tr t).2
        ⟨ht, (updateTiles_required_suffix m tr).subset hc⟩)
  exact ⟨hiff, (List.perm_ext_iff_of_nodup (updateTiles_tiles_nodup m tr h)
    (updateTiles_required_nodup m tr)).2 hiff⟩

/-- Witness for C19 on the example cache and viewport: the substitutes kept
are the ready child `(2,4,6)` and the ready parent `(0,1,4)`. -/
theorem substitutes_only_witness :
    (tileIds exampleMap.tiles).Nodup ∧
    tileIds (updateTiles exampleMap exampleTransform).tiles =
      [⟨2, 4, 6⟩, ⟨1, 3, 5⟩, ⟨2, 3, 5⟩, ⟨1, 2, 5⟩, ⟨2, 2, 5⟩, ⟨0, 1, 4⟩] ∧
    (∀ t ∈ (updateTiles exampleMap exampleTransform).tiles,
      t.id ∉ (updateTiles exampleMap exampleTransform).required →
        t.state = tile_state.ready) :=
  ⟨by decide, by decide,
    fun t ht hn => ((substitutes_only exampleMap exampleTransform (by decide)).1 t ht hn).1⟩

end llmr

/-! ## Glyph parsing -/

namespace mbgl

theorem foldl_push_eq {α β : Type} (f : α → Option β) (g : List β → α → List β)
    (hg : ∀ result x, g result x = result ++ (f x).toList) (xs : List α) (init : List β) :
    xs.foldl g init = init ++ xs.filterMap f := by
  induction xs generalizing init with
  | nil => simp
  | cons a xs ih =>
    rw [List.foldl_cons, ih, hg, List.filterMap_cons]
    cases f a <;> simp

theorem parseGlyphPBF_eq (borderSize : Nat) (glyphRange : Nat × Nat)
    (data : List (List (List glyph_field))) :
    parseGlyphPBF borderSize glyphRange data =
      data.flatten.filterMap (parseGlyph borderSize glyphRange) := by
  have inner : ∀ (fontstack : List (List glyph_field)) (init : List SDFGlyph),
      fontstack.foldl
        (fun result fields =>
          match parseGlyph borderSize glyphRange fields with
          | some glyph => result ++ [glyph]
          | none => result) init =
        init ++ fontstack.filterMap (parseGlyph borderSize glyphRange) := by
    intro fontstack init
    apply foldl_push_eq
    intro result fields
    cases parseGlyph borderSize glyphRange fields <;> simp
  have outer : ∀ (init : List SDFGlyph),
      data.foldl (fun result fontstack =>
        result ++ fontstack.filterMap (parseGlyph borderSize glyphRange)) init =
        init ++ data.flatten.filterMap (parseGlyph borderSize glyphRange) := by
    induction data with
    | nil => intro init; simp
    | cons a l ih =>
      intro init
      rw [List.foldl_cons, ih, List.flatten_cons, List.filterMap_append, List.append_assoc]
  unfold parseGlyphPBF
  simp only [inner]
  rw [outer]
  rfl

/-- What lines 60-93 do with one decoded record: it is dropped exactly when
it is not well formed, and a glyph that is kept carries the id, a bitmap of
the padded size exactly when width and height are both non-zero, and the
metrics unless width, height and advance are all zero. -/
theorem parseGlyph_eq (borderSize : Nat) (glyphRange : Nat × Nat) (fields : List glyph_field) :
    ((parseGlyph borderSize glyphRange fields).isSome = true ↔
      accepted borderSize glyphRange (readGlyph fields)) ∧
    (∀ glyph, parseGlyph borderSize glyphRange fields = some glyph →
      glyph.id = (readGlyph fields).id ∧
      glyph.bitmap =
        (if (readGlyph fields).metrics.width ≠ 0 ∧ (readGlyph fields).metrics.height ≠ 0 then
          some ⟨⟨(readGlyph fields).metrics.width + 2 * borderSize,
            (readGlyph fields).metrics.height + 2 * borderSize⟩, (readGlyph fields).glyphData⟩
        else none) ∧
      glyph.metrics =
        (if (readGlyph fields).metrics.width = 0 ∧ (readGlyph fields).metrics.height = 0 ∧
            (readGlyph fields).metrics.advance = 0 then none
        else some (readGlyph fields).metrics)) := by
  unfold parseGlyph accepted Size.area
  generalize readGlyph fields = r
  simp only
  by_cases h1 : (!r.hasID || !r.hasWidth || !r.hasHeight || !r.hasLeft || !r.hasTop ||
      !r.hasAdvance ||
      decide (r.metrics.width ≥ 256) || decide (r.metrics.height ≥ 256) ||
      decide (r.metrics.left < -128) || decide (r.metrics.left ≥ 128) ||
      decide (r.metrics.top < -128) || decide (r.metrics.top ≥ 128) ||
      decide (r.metrics.advance ≥ 256) ||
      decide (r.id < glyphRange.1) || decide (r.id > glyphRange.2)) = true
  · rw [if_pos h1]
    simp only [Bool.or_eq_true, Bool.not_eq_true', decide_eq_true_eq] at h1
    refine ⟨?_, fun glyph hg => by cases hg⟩
    simp only [Option.isSome_none, Bool.false_eq_true, false_iff]
    rintro ⟨a1, a2, a3, a4, a5, a6, a7, a8, a9, a10, a11, a12, a13, a14, a15, _⟩
    rcases h1 with ((((((((((((((h | h) | h) | h) | h) | h) | h) | h) | h) | h) | h) | h) | h) |
      h) | h) <;> first | omega | simp_all
  · rw [if_neg h1]
    simp only [Bool.or_eq_true, Bool.not_eq_true', decide_eq_true_eq, not_or,
      Bool.not_eq_false] at h1
    obtain ⟨⟨⟨⟨⟨⟨⟨⟨⟨⟨⟨⟨⟨⟨a1, a2⟩, a3⟩, a4⟩, a5⟩, a6⟩, a7⟩, a8⟩, a9⟩, a10⟩, a11⟩, a12⟩, a13⟩,
      a14⟩, a15⟩ := h1
    have hbase : ∀ Q : Prop, Q →
        (r.hasID = true ∧ r.hasWidth = true ∧ r.hasHeight = true ∧ r.hasLeft = true ∧
        r.hasTop = true ∧ r.hasAdvance = true ∧
        r.metrics.width < 256 ∧ r.metrics.height < 256 ∧
        -128 ≤ r.metrics.left ∧ r.metrics.left < 128 ∧
        -128 ≤ r.metrics.top ∧ r.metrics.top < 128 ∧
        r.metrics.advance < 256 ∧
        glyphRange.1 ≤ r.id ∧ r.id ≤ glyphRange.2 ∧ Q) :=
      fun Q q => ⟨a1, a2, a3, a4, a5, a6, by omega, by omega, by omega, by omega, by omega,
        by omega, by omega, by omega, by omega, q⟩
    by_cases hwh : r.metrics.width ≠ 0 ∧ r.metrics.height ≠ 0
    · rw [if_pos hwh]
      by_cases ha : (r.metrics.width + 2 * borderSize) * (r.metrics.height + 2 * borderSize) ≠
          r.glyphData.length
      · rw [if_pos ha]
        refine ⟨?_, fun glyph hg => by cases hg⟩
        simp only [Option.isSome_none, Bool.false_eq_true, false_iff]
        intro hacc
        exact ha (hacc.2.2.2.2.2.2.2.2.2.2.2.2.2.2.2 hwh).symm
      · rw [if_neg ha]
        have hnz : ¬ (r.metrics.width = 0 ∧ r.metrics.height = 0 ∧ r.metrics.advance = 0) :=
          fun h => hwh.1 h.1
        dsimp only
        rw [if_pos hnz]
        refine ⟨⟨fun _ => hbase _ (fun _ => (not_not.1 ha).symm), fun _ => rfl⟩, ?_⟩
        intro glyph hg
        cases hg
        exact ⟨rfl, (if_pos hwh).symm, (if_neg hnz).symm⟩
    · rw [if_neg hwh]
      dsimp only
      by_cases hz : r.metrics.width = 0 ∧ r.metrics.height = 0 ∧ r.metrics.advance = 0
      · rw [if_neg (fun hn => hn hz)]
        refine ⟨⟨fun _ => hbase _ (fun h => absurd h hwh), fun _ => rfl⟩, ?_⟩
        intro glyph hg
        cases hg
        exact ⟨rfl, (if_neg hwh).symm, (if_pos hz).symm⟩
      · rw [if_pos hz]
        refine ⟨⟨fun _ => hbase _ (fun h => absurd h hwh), fun _ => rfl⟩, ?_⟩
        intro glyph hg
        cases hg
        exact ⟨rfl, (if_neg hwh).symm, (if_neg hz).symm⟩

theorem parseGlyph_ids (borderSize : Nat) (glyphRange : Nat × Nat)
    (records : List (List glyph_field)) :
    (records.filterMap (parseGlyph borderSize glyphRange)).map SDFGlyph.id =
      ((records.map readGlyph).filter
        (fun r => decide (accepted borderSize glyphRange r))).map glyph_reader.id := by
  induction records with
  | nil => rfl
  | cons fields rest ih =>
    have h := parseGlyph_eq borderSize glyphRange fields
    rw [List.filterMap_cons, List.map_cons, List.filter_cons]
    cases hp : parseGlyph borderSize glyphRange fields with
    | none =>
      have hn : ¬ accepted borderSize glyphRange (readGlyph fields) := by
        intro hacc
        have := h.1.2 hacc
        rw [hp] at this
        cases this
      simp only [hn, decide_False, Bool.false_eq_true, if_false]
      exact ih
    | some glyph =>
      have hacc : accepted borderSize glyphRange (readGlyph fields) := h.1.1 (by rw [hp]; rfl)
      simp only [hacc, decide_True, if_true, List.map_cons, (h.2 glyph hp).1]
      rw [ih]

/-- C20: `parseGlyphPBF` returns, in input order, the glyphs of exactly the
decoded records that carry all six fields, have `width < 256`,
`height < 256`, `-128 <= left < 128`, `-128 <= top < 128`, `advance < 256`
and an id inside the glyph range, and whose bitmap has
`(width + 2*borderSize) * (height + 2*borderSize)` bytes whenever width and
height are both non-zero; a returned glyph carries the id of its record, a
bitmap exactly when width and height are both non-zero, and metrics unless
width, height and advance are all zero. -/
theorem parseGlyphPBF_exact (borderSize : Nat) (glyphRange : Nat × Nat)
    (data : List (List (List glyph_field))) :
    parseGlyphPBF borderSize glyphRange data =
      data.flatten.filterMap (parseGlyph borderSize glyphRange) ∧
    (∀ fields, (parseGlyph borderSize glyphRange fields).isSome = true ↔
      accepted borderSize glyphRange (readGlyph fields)) ∧
    (parseGlyphPBF borderSize glyphRange data).map SDFGlyph.id =
      ((data.flatten.map readGlyph).filter
        (fun r => decide (accepted borderSize glyphRange r))).map glyph_reader.id ∧
    (∀ fields glyph, parseGlyph borderSize glyphRange fields = some glyph →
      glyph.id = (readGlyph fields).id ∧
      (glyph.bitmap.isSome = true ↔
        (readGlyph fields).metrics.width ≠ 0 ∧ (readGlyph fields).metrics.height ≠ 0) ∧
      (∀ image, glyph.bitmap = some image →
        image.size = ⟨(readGlyph fields).metrics.width + 2 * borderSize,
          (readGlyph fields).metrics.height + 2 * borderSize⟩ ∧
        image.data = (readGlyph fields).glyphData ∧
        image.data.length = image.size.area) ∧
      (glyph.metrics.isSome = true ↔
        ¬ ((readGlyph fields).metrics.width = 0 ∧ (readGlyph fields).metrics.height = 0 ∧
          (readGlyph fields).metrics.advance = 0)) ∧
      (∀ metrics, glyph.metrics = some metrics → metrics = (readGlyph fields).metrics)) ∧
    parseGlyphPBF 3 (0, 255) exampleGlyphs =
      [⟨65, some ⟨⟨7, 7⟩, List.replicate 49 0⟩, some ⟨1, 1, 0, -1, 2⟩⟩,
       ⟨32, none, some ⟨0, 0, 0, 0, 5⟩⟩] := by
  refine ⟨parseGlyphPBF_eq borderSize glyphRange data,
    fun fields => (parseGlyph_eq borderSize glyphRange fields).1, ?_,
    fun fields glyph hg => ?_, by decide⟩
  · rw [parseGlyphPBF_eq]
    exact parseGlyph_ids borderSize glyphRange data.flatten
  · obtain ⟨hid, hbm, hmt⟩ := (parseGlyph_eq borderSize glyphRange fields).2 glyph hg
    have hacc := (parseGlyph_eq borderSize glyphRange fields).1.1 (by rw [hg]; rfl)
    refine ⟨hid, ?_, ?_, ?_, ?_⟩
    · rw [hbm]
      split <;> simp_all
    · intro image himg
      rw [hbm] at himg
      split at himg
      · rename_i hwh
        cases himg
        refine ⟨rfl, rfl, ?_⟩
        exact hacc.2.2.2.2.2.2.2.2.2.2.2.2.2.2.2 hwh
      · cases himg
    · rw [hmt]
      split <;> simp_all
    · intro metrics hm
      rw [hmt] at hm
      split at hm
      · cases hm
      · cases hm
        rfl

end mbgl
